import Mathlib

/-!
Pitch estimator (get_pitch / PitchAnalyzer): embedding and properties.

Shallow embedding of `src/get_pitch/pitch_analyzer.{h,cpp}` and of the
processing loops of `src/get_pitch/get_pitch.cpp`.

Modelling conventions.

* `float` values are exact rationals (`ℚ`): rounding, infinities and NaN are
  outside the model.  A division whose divisor is zero and a logarithm of a
  non-positive number have no value in the model (`none`).
* `std::vector<float>` is `List ℚ`; every element access is checked, and an
  access outside the vector makes the whole computation `none`.
* Counted `for` loops whose body does not change the counter or the bound are
  run by `forLoop`.
* The library functions `log10` and `cos` and the constant `M_PI` are
  parameters of the definitions that use them.
* `unsigned int` and `int` values are `Nat` and `Int`; the 32-bit wrap is
  written out where a conversion or a sum can leave the range.
* The frame length `n_len` and the frame shift `n_shift` of `main` are
  parameters of the frame loop.
* A frame of a pure sinusoid is a frame whose samples, exact rationals, are
  the real numbers `A·cos(2π·f·n/sr + φ)`; the real cosine occurs in
  statements about such frames only, never in a definition.
-/

namespace upc

/-- The loop `for (i = lo; i < lo + n; ++i) s = body(i, s)`, stopping with
`none` as soon as one iteration has no value. -/
def forLoop {σ : Type} (body : Nat → σ → Option σ) : Nat → Nat → σ → Option σ
  | _, 0, s => some s
  | lo, n + 1, s => (body lo s).bind (forLoop body (lo + 1) n)

/-- Float division `a / b`; no value in the exact model when `b = 0`. -/
def fdiv (a b : ℚ) : Option ℚ :=
  if b = 0 then none else some (a / b)

/-- The literal `1e-10` written into `r[0]` by `autocorrelation`. -/
def r0_floor : ℚ := 1 / 10000000000

/-- Inner loop of `autocorrelation`:
`for (n = l; n < x.size(); n++) r[l] += x[n]*x[n-l];`
with the accumulator `r[l]` as the loop state. -/
def acc_lag (x : List ℚ) (l : Nat) (acc : ℚ) : Option ℚ :=
  forLoop (fun n acc => do
      let a ← x[n]?
      let b ← x[n - l]?
      pure (acc + a * b)) l (x.length - l) acc

/-- One iteration of the outer loop of `autocorrelation`:
`r[l] = 0; (inner loop); r[l] /= x.size();`. -/
def autocorrelation_lag (x : List ℚ) (l : Nat) (r : List ℚ) : Option (List ℚ) :=
  if l < r.length then do
    let s ← acc_lag x l 0
    let v ← fdiv s (x.length : ℚ)
    pure (r.set l v)
  else none

/-- Method `PitchAnalyzer::autocorrelation(x, r)`: the vector `r` is passed in
pre-sized and the updated vector is returned. -/
def autocorrelation (x : List ℚ) (r : List ℚ) : Option (List ℚ) := do
  let r ← forLoop (autocorrelation_lag x) 0 r.length r
  let r0 ← r[0]?
  if r0 = 0 then pure (r.set 0 r0_floor) else pure r

/-- The data members of `class PitchAnalyzer`. -/
structure PitchAnalyzer where
  /-- Precomputed window. -/
  window : List ℚ
  /-- Length of frame (in samples). -/
  frameLen : Nat
  /-- Sampling rate (in samples per second). -/
  samplingFreq : Nat
  /-- Minimum value of pitch period (in samples). -/
  npitch_min : Nat
  /-- Maximum value of pitch period (in samples). -/
  npitch_max : Nat
  /-- Threshold for normalized maximum autocorrelation. -/
  r2maxth : ℚ
  /-- Threshold for the ratio between autocorrelation indices 1 and 0. -/
  r1r0th : ℚ
  /-- Threshold for zero crossing rate. -/
  zcrth : ℚ
  /-- Threshold for power. -/
  potth : ℚ

/-- Method `PitchAnalyzer::unvoiced`: counts the satisfied conditions in `voiced`
and answers `false` (voiced) only when the count is 4. -/
def unvoiced (a : PitchAnalyzer) (zcr r1norm rmaxnorm pot : ℚ) : Bool :=
  let voiced : Int := 0
  let voiced := if rmaxnorm > a.r2maxth then voiced + 1 else voiced
  let voiced := if r1norm > a.r1r0th then voiced + 1 else voiced
  let voiced := if zcr < a.zcrth then voiced + 1 else voiced
  let voiced := if pot > a.potth then voiced + 1 else voiced
  if voiced = 4 then false else true

/-- The lag search of `compute_pitch`:
`for (iRMax = iR = r.begin() + npitch_min; iR < r.begin() + npitch_max; iR++)
   if (*iR > *iRMax) iRMax = iR;`
followed by `lag = iRMax - r.begin()`.  Iterators are offsets into `r`; the
loop state is `iRMax`. -/
def lag_search (r : List ℚ) (npitch_min npitch_max : Nat) : Option Nat :=
  forLoop (fun iR iRMax => do
      let v ← r[iR]?
      let m ← r[iRMax]?
      if v > m then pure iR else pure iRMax) npitch_min (npitch_max - npitch_min) npitch_min

/-- The windowing loop of `compute_pitch`:
`for (i = 0; i < x.size(); ++i) x[i] *= window[i];`. -/
def apply_window (window : List ℚ) (x : List ℚ) : Option (List ℚ) :=
  forLoop (fun i x => do
      let xi ← x[i]?
      let wi ← window[i]?
      pure (x.set i (xi * wi))) 0 x.length x

/-- The value `log10(v)`, defined for positive `v` only; `log10` is the
library function, taken as a parameter. -/
def flog10 (log10 : ℚ → ℚ) (v : ℚ) : Option ℚ :=
  if 0 < v then some (log10 v) else none

/-- Method `PitchAnalyzer::compute_pitch(x, zcr)`.  The diagnostic line written to
`cout` is not part of the model. -/
def compute_pitch (log10 : ℚ → ℚ) (a : PitchAnalyzer) (x : List ℚ) (zcr : ℚ) : Option ℚ :=
  if x.length ≠ a.frameLen then some (-1)
  else do
    let x ← apply_window a.window x
    let r ← autocorrelation x (List.replicate a.npitch_max 0)
    let lag ← lag_search r a.npitch_min a.npitch_max
    let r0 ← r[0]?
    let l10 ← flog10 log10 r0
    let pot := 10 * l10
    let r1 ← r[1]?
    let rlag ← r[lag]?
    let r1norm ← fdiv r1 r0
    let rmaxnorm ← fdiv rlag r0
    if unvoiced a zcr r1norm rmaxnorm pot then pure 0
    else fdiv (a.samplingFreq : ℚ) (lag : ℚ)

/-- Entry point `PitchAnalyzer::operator()(const std::vector<float> &_x, float zcr)`. -/
def call_vector (log10 : ℚ → ℚ) (a : PitchAnalyzer) (_x : List ℚ) (zcr : ℚ) : Option ℚ :=
  if _x.length ≠ a.frameLen then some (-1)
  else compute_pitch log10 a _x zcr

/-- Entry point `PitchAnalyzer::operator()(const float *pt, unsigned int N, float zcr)`:
`mem` is the array that `pt` points to; copying `N` values out of it needs
`N` values to be there. -/
def call_pointer (log10 : ℚ → ℚ) (a : PitchAnalyzer) (mem : List ℚ) (N : Nat) (zcr : ℚ) :
    Option ℚ :=
  if N ≠ a.frameLen then some (-1)
  else if mem.length < N then none
  else compute_pitch log10 a (mem.take N) zcr

/-- Entry point `PitchAnalyzer::operator()(begin, end, zcr)`: the iterators are the
offsets `b` and `e` into the vector `v`; `end - begin` is a signed
difference. -/
def call_range (log10 : ℚ → ℚ) (a : PitchAnalyzer) (v : List ℚ) (b e : Nat) (zcr : ℚ) :
    Option ℚ :=
  if (e : Int) - (b : Int) ≠ (a.frameLen : Int) then some (-1)
  else if v.length < e then none
  else compute_pitch log10 a ((v.drop b).take (e - b)) zcr

/-- The window shapes of `enum Window`. -/
inductive Window where
  | RECT
  | HAMMING
  deriving DecidableEq

/-- The macro `HAMMING_A0`. -/
def HAMMING_A0 : ℚ := 54 / 100

/-- The conversion `(unsigned int) v` of a float: truncation toward zero,
with a value only when the truncated number fits in 32 bits. -/
def float_to_unsigned (v : ℚ) : Option Nat :=
  if -1 < v ∧ v < 4294967296 then some (Int.toNat ⌊v⌋) else none

/-- Method `PitchAnalyzer::set_f0_range(min_F0, max_F0)`. -/
def set_f0_range (a : PitchAnalyzer) (min_F0 max_F0 : ℚ) : Option PitchAnalyzer := do
  let q ← fdiv (a.samplingFreq : ℚ) max_F0
  let npitch_min ← float_to_unsigned q
  let npitch_min := if npitch_min < 2 then 2 else npitch_min
  let q ← fdiv (a.samplingFreq : ℚ) min_F0
  let n ← float_to_unsigned q
  let npitch_max := (1 + n) % 4294967296
  let npitch_max := if npitch_max > a.frameLen / 2 then a.frameLen / 2 else npitch_max
  pure { a with npitch_min := npitch_min, npitch_max := npitch_max }

/-- The call `window.resize(n)`: the first `n` values, padded with zeros. -/
def resize (window : List ℚ) (n : Nat) : List ℚ :=
  window.take n ++ List.replicate (n - window.length) 0

/-- Method `PitchAnalyzer::set_window(win_type)`; `cos` and `M_PI` are the
library function and constant, taken as parameters. -/
def set_window (cos : ℚ → ℚ) (M_PI : ℚ) (a : PitchAnalyzer) (win_type : Window) :
    Option PitchAnalyzer :=
  if a.frameLen = 0 then some a
  else
    let window := resize a.window a.frameLen
    match win_type with
    | Window.HAMMING => do
      let window ← forLoop (fun i window => do
          let a0 := HAMMING_A0
          let a1 := 1 - a0
          let arg ← fdiv (2 * M_PI * (i : ℚ)) ((a.frameLen - 1 : Nat) : ℚ)
          if i < window.length then pure (window.set i (a0 - a1 * cos arg)) else none)
        0 a.frameLen window
      pure { a with window := window }
    | Window.RECT => some { a with window := List.replicate a.frameLen 1 }

/-- The constructor `PitchAnalyzer(fLen, sFreq, w, min_F0, max_F0, r2maxth_,
r1r0th_, zcrth_, potth_)`: member initialisers, then `set_f0_range`, then
`set_window`. -/
def PitchAnalyzer.init (cos : ℚ → ℚ) (M_PI : ℚ) (fLen sFreq : Nat) (w : Window)
    (min_F0 max_F0 r2maxth_ r1r0th_ zcrth_ potth_ : ℚ) : Option PitchAnalyzer := do
  let a : PitchAnalyzer :=
    { window := [], frameLen := fLen, samplingFreq := sFreq, npitch_min := 0, npitch_max := 0,
      r2maxth := r2maxth_, r1r0th := r1r0th_, zcrth := zcrth_, potth := potth_ }
  let a ← set_f0_range a min_F0 max_F0
  set_window cos M_PI a w

/-- The analyzer that `main` builds for a signal sampled at 200 Hz (frames of
6 samples) when all thresholds are 0: rectangular window, lag range `[2, 3)`. -/
def rect6 : PitchAnalyzer :=
  { window := [1, 1, 1, 1, 1, 1], frameLen := 6, samplingFreq := 200, npitch_min := 2,
    npitch_max := 3, r2maxth := 0, r1r0th := 0, zcrth := 0, potth := 0 }

end upc

namespace get_pitch

open upc

/-- The helper `abs_f` of get_pitch.cpp. -/
def abs_f (value : ℚ) : ℚ :=
  if value < 0 then -1 * value else value

/-- The clip level of `main`:
`Cl = -1.0; for (iX ...) Cl = std::max(Cl, abs_f(*iX)); Cl = clipmult * Cl;`. -/
def clip_level (clipmult : ℚ) (x : List ℚ) : ℚ :=
  clipmult * x.foldl (fun Cl v => max Cl (abs_f v)) (-1)

/-- The value written back by the central-clipping statement
`if (abs(act) < Cl) *it = 0; else *it = *it + Cl * ((act < 0) - (act > 0));`
for the sample `act = *it`; `abs` is the floating-point overload (the file
has `using namespace std`), and the two comparisons are the integers 0 or 1. -/
def clip_sample (Cl act : ℚ) : ℚ :=
  if |act| < Cl then 0
  else act + Cl * (((if act < 0 then 1 else 0) - (if act > 0 then 1 else 0) : Int) : ℚ)

/-- The variables changed by the per-sample loop of a frame: the signal
buffer `x`, and the locals `prev` and `aux`. -/
structure Scan where
  /-- The signal buffer. -/
  x : List ℚ
  /-- The previous sample read. -/
  prev : ℚ
  /-- The count of zero crossings. -/
  aux : ℚ

/-- Body of the per-sample loop, at buffer offset `it`:
`act = *it; if ((act * prev) < 0) aux++; prev = act; (central clipping of *it)`. -/
def scan_sample (Cl : ℚ) (it : Nat) (s : Scan) : Option Scan := do
  let act ← s.x[it]?
  let aux := if act * s.prev < 0 then s.aux + 1 else s.aux
  pure { x := s.x.set it (clip_sample Cl act), prev := act, aux := aux }

/-- The per-sample loop of the frame that starts at offset `iX`:
`prev = 0; aux = 0; for (it = iX; it < iX + n_len; ++it) ...`. -/
def scan_frame (Cl : ℚ) (n_len iX : Nat) (x : List ℚ) : Option Scan :=
  forLoop (scan_sample Cl) iX n_len { x := x, prev := 0, aux := 0 }

/-- The integer quotient of `float cte = rate / (2 * (n_len - 1));`:
`rate` is `unsigned int` and `n_len` is `int`, so the divisor is converted to
`unsigned int` and the division is the unsigned integer division; a zero
divisor has no value. -/
def cte (rate : Nat) (n_len : Nat) : Option Nat :=
  let d := ((2 * ((n_len : Int) - 1)) % 4294967296).toNat
  if d = 0 then none else some (rate / d)

/-- The frame loop of `main`:
`for (iX = x.begin(); iX + n_len < x.end(); iX = iX + n_shift) { ... }`
with `est buffer begin end zcr` standing for the call
`analyzer(iX, iX + n_len, zcr)`.  The state is the offset `iX`, the buffer
`x` and the contour `f0`; `fuel` bounds the number of tests of the loop
condition. -/
def frame_loop {α : Type} (est : List ℚ → Nat → Nat → ℚ → Option α) (Cl c : ℚ)
    (n_len n_shift : Nat) : Nat → Nat → List ℚ → List α → Option (List ℚ × List α)
  | 0, _, _, _ => none
  | fuel + 1, iX, x, f0 =>
    if iX + n_len < x.length then do
      let s ← scan_frame Cl n_len iX x
      let zcr := s.aux * c
      let f ← est s.x iX (iX + n_len) zcr
      frame_loop est Cl c n_len n_shift fuel (iX + n_shift) s.x (f0 ++ [f])
    else some (x, f0)

/-- The frame loop run from `iX = x.begin()` with an empty contour, for the
analyzer `a`; the result is the buffer left behind and the contour `f0`. -/
def estimate_frames (log10 : ℚ → ℚ) (a : PitchAnalyzer) (rate : Nat) (Cl : ℚ)
    (n_len n_shift : Nat) (x : List ℚ) : Option (List ℚ × List ℚ) := do
  let c ← cte rate n_len
  frame_loop (call_range log10 a) Cl (c : ℚ) n_len n_shift (x.length + 1) 0 x []

/-- An estimator that records what it is handed: the frame
`[begin, end)` of the buffer and the zero-crossing rate. -/
def record_frame (buf : List ℚ) (b e : Nat) (zcr : ℚ) : Option (List ℚ × ℚ) :=
  some ((buf.drop b).take (e - b), zcr)

/-- One compare-and-swap of the bubble sort:
`if (filter[l] > filter[l+1]) { aux = filter[l]; filter[l] = filter[l+1]; filter[l+1] = aux; }`. -/
def bubble_step (l : Nat) (filter : List ℚ) : Option (List ℚ) := do
  let a ← filter[l]?
  let b ← filter[l + 1]?
  if a > b then pure ((filter.set l b).set (l + 1) a) else pure filter

/-- The sort of the median filter:
`for (k = 0; k < F_size-1; k++) for (l = 0; l < F_size-k-1; l++) ...`. -/
def bubble_sort (F_size : Int) (filter : List ℚ) : Option (List ℚ) :=
  forLoop (fun k flt => forLoop bubble_step 0 (F_size - (k : Int) - 1).toNat flt)
    0 (F_size - 1).toNat filter

/-- The window copy `for (i = 0; i < F_size; i++) filter.push_back(*(iX+i));`
at contour offset `iX`, starting from the empty `filter`. -/
def fill_filter (F_size : Int) (iX : Nat) (f0 : List ℚ) : Option (List ℚ) :=
  forLoop (fun i flt => do
      let v ← f0[iX + i]?
      pure (flt ++ [v])) 0 F_size.toNat []

/-- Body of the median-filter loop at contour offset `iX`: fill `filter`,
sort it, `f0[iX - f0.begin()] = filter[F_size/2]`. -/
def medfilt_step (F_size : Int) (iX : Nat) (f0 : List ℚ) : Option (List ℚ) := do
  let filter ← fill_filter F_size iX f0
  let filter ← bubble_sort F_size filter
  let m ← if 0 ≤ Int.tdiv F_size 2 then filter[(Int.tdiv F_size 2).toNat]? else none
  if iX < f0.length then pure (f0.set iX m) else none

/-- The first `n` iterations of the median-filter loop. -/
def medfilt_steps (F_size : Int) (n : Nat) (f0 : List ℚ) : Option (List ℚ) :=
  forLoop (medfilt_step F_size) 0 n f0

/-- The median filter of `main`:
`for (iX = f0.begin(); iX < f0.end() - (F_size - 1); ++iX) { ... }`. -/
def medfilt (F_size : Int) (f0 : List ℚ) : Option (List ℚ) :=
  medfilt_steps F_size ((f0.length : Int) - (F_size - 1)).toNat f0

/-- The macro `FRAME_LEN` (30 ms). -/
def FRAME_LEN : ℚ := 30 / 1000

/-- The macro `FRAME_SHIFT` (15 ms). -/
def FRAME_SHIFT : ℚ := 15 / 1000

/-- The conversion of a floating-point value to `int`: truncation toward
zero, with a value only when the truncated number fits in 32 bits. -/
def float_to_int (v : ℚ) : Option Int :=
  if -2147483649 < v ∧ v < 2147483648 then some (if 0 ≤ v then ⌊v⌋ else ⌈v⌉) else none

/-- The frame length of `main`: `int n_len = rate * FRAME_LEN;`. -/
def main_n_len (rate : Nat) : Option Int :=
  float_to_int ((rate : ℚ) * FRAME_LEN)

/-- The frame shift of `main`: `int n_shift = rate * FRAME_SHIFT;`. -/
def main_n_shift (rate : Nat) : Option Int :=
  float_to_int ((rate : ℚ) * FRAME_SHIFT)

/-- The function `main` from the point where the input file has been read
into `rate` and `x` to the lines written to the output file: frame sizes,
analyzer, clip level, frame loop, median filter, and the contour between the
two boundary zeros.  The frame sizes are never negative, so their conversion
to the unsigned and iterator arithmetic of the callees is `toNat`. -/
def main_contour (log10 cos : ℚ → ℚ) (M_PI : ℚ) (rate : Nat) (x : List ℚ)
    (r2maxth clipmult r1r0th zcrth medfilt_arg potth : ℚ) : Option (List ℚ) := do
  let n_len ← main_n_len rate
  let n_shift ← main_n_shift rate
  let analyzer ← PitchAnalyzer.init cos M_PI n_len.toNat rate Window.RECT 50 500
    r2maxth r1r0th zcrth potth
  let Cl := clip_level clipmult x
  let run ← estimate_frames log10 analyzer rate Cl n_len.toNat n_shift.toNat x
  let F_size ← float_to_int medfilt_arg
  let f0 ← medfilt F_size run.2
  pure ([0] ++ f0 ++ [0])

end get_pitch

/-! ## Reference definitions, written from the specification -/

namespace upc

/-- The biased autocorrelation estimator at lag `l` of the frame `x`, as the
specification writes it: `(1/N) * sum_{n=l}^{N-1} x[n] * x[n-l]`. -/
def biased_estimator (x : List ℚ) (l : Nat) : ℚ :=
  (1 / (x.length : ℚ)) * ∑ n in Finset.Ico l x.length, x.getD n 0 * x.getD (n - l) 0

end upc

namespace get_pitch

/-- The number of zero crossings of the frame `f`, as the specification counts
them: the positions `i` in `1 .. frameLen-1` with `f[i-1] * f[i] < 0`. -/
def crossings (f : List ℚ) : Nat :=
  ∑ i in Finset.Ico 1 f.length, if f.getD (i - 1) 0 * f.getD i 0 < 0 then 1 else 0

/-- The samples `x[iX .. iX + n_len)` of the signal `x`. -/
def frame_at (x : List ℚ) (iX n_len : Nat) : List ℚ := (x.drop iX).take n_len

/-- The windowed median as the specification defines it: the element at index
`W/2` (integer division) of the ascending sort of the `W` values of the
window `w`. -/
def window_median (w : List ℚ) : ℚ := (w.insertionSort (· ≤ ·)).getD (w.length / 2) 0

/-- The median filter as the design notes of the specification propose it:
every window `f0[i .. i+W)` is read from an immutable snapshot of the raw
contour and the result is written into a separate sequence; positions that
cannot fill a window keep their value. -/
def snapshot_medfilt (W : Nat) (f0 : List ℚ) : List ℚ :=
  (List.range f0.length).map (fun i =>
    if i + W ≤ f0.length then window_median (frame_at f0 i W) else f0.getD i 0)

end get_pitch

/-! ## Loops -/

namespace upc

theorem forLoop_zero {σ : Type} (body : Nat → σ → Option σ) (lo : Nat) (s : σ) :
    forLoop body lo 0 s = some s := by
  cases lo <;> rfl

theorem forLoop_step {σ : Type} (body : Nat → σ → Option σ) (lo n : Nat) (s : σ) :
    forLoop body lo (n + 1) s = (body lo s).bind (forLoop body (lo + 1) n) := by
  cases lo <;> rfl

/-- Running `n + 1` iterations is running `n` and then the body at `lo + n`. -/
theorem forLoop_succ_last {σ : Type} (body : Nat → σ → Option σ) (lo n : Nat) (s : σ) :
    forLoop body lo (n + 1) s = (forLoop body lo n s).bind (body (lo + n)) := by
  induction n generalizing lo s with
  | zero =>
    rw [forLoop_step, forLoop_zero]
    cases h : body lo s <;> simp [forLoop_zero, h]
  | succ n ih =>
    rw [forLoop_step, forLoop_step]
    cases h : body lo s with
    | none => simp
    | some t =>
      simp only [Option.some_bind]
      rw [ih]
      have : lo + 1 + n = lo + (n + 1) := by omega
      rw [this]

/-- Invariant rule: an invariant that holds on entry and that every iteration
with a value re-establishes holds on exit, and the loop has a value. -/
theorem forLoop_inv {σ : Type} (body : Nat → σ → Option σ) (P : Nat → σ → Prop)
    (lo n : Nat) (s : σ) (h0 : P lo s)
    (hstep : ∀ i t, lo ≤ i → i < lo + n → P i t → ∃ t', body i t = some t' ∧ P (i + 1) t') :
    ∃ t, forLoop body lo n s = some t ∧ P (lo + n) t := by
  induction n generalizing lo s with
  | zero => exact ⟨s, forLoop_zero body lo s, h0⟩
  | succ n ih =>
    obtain ⟨t', ht', hP⟩ := hstep lo s (le_refl _) (by omega) h0
    obtain ⟨t, ht, hPt⟩ := ih (lo + 1) t' hP (fun i u h1 h2 hu => hstep i u (by omega) (by omega) hu)
    refine ⟨t, ?_, ?_⟩
    · rw [forLoop_step, ht']; exact ht
    · have : lo + (n + 1) = lo + 1 + n := by omega
      rw [this]; exact hPt

/-- Partial-correctness form of the invariant rule: when the loop has a
value, an invariant kept by every iteration that has a value holds on exit. -/
theorem forLoop_inv_of_some {σ : Type} (body : Nat → σ → Option σ) (P : Nat → σ → Prop)
    (lo n : Nat) (s t : σ) (h0 : P lo s)
    (hstep : ∀ i u u', body i u = some u' → P i u → P (i + 1) u')
    (h : forLoop body lo n s = some t) : P (lo + n) t := by
  induction n generalizing lo s with
  | zero =>
    rw [forLoop_zero] at h
    rw [← Option.some.inj h]
    exact h0
  | succ n ih =>
    rw [forLoop_step] at h
    cases hb : body lo s with
    | none => rw [hb] at h; exact Option.noConfusion h
    | some u =>
      rw [hb] at h
      have := ih (lo + 1) u (hstep lo s u hb h0) h
      have e : lo + (n + 1) = lo + 1 + n := by omega
      rw [e]; exact this

end upc

/-! ## Autocorrelation -/

namespace upc

theorem acc_lag_eq (x : List ℚ) (l : Nat) (acc : ℚ) :
    acc_lag x l acc
      = some (acc + ∑ n in Finset.Ico l x.length, x.getD n 0 * x.getD (n - l) 0) := by
  by_cases hl : l ≤ x.length
  · obtain ⟨t, ht, hP⟩ := forLoop_inv
      (fun n acc => do
        let a ← x[n]?
        let b ← x[n - l]?
        pure (acc + a * b))
      (fun i t => t = acc + ∑ n in Finset.Ico l i, x.getD n 0 * x.getD (n - l) 0)
      l (x.length - l) acc (by simp)
      (by
        intro i t h1 h2 ht
        have hi : i < x.length := by omega
        have hil : i - l < x.length := by omega
        refine ⟨t + x.getD i 0 * x.getD (i - l) 0, ?_, ?_⟩
        · simp [List.getElem?_eq_getElem hi, List.getElem?_eq_getElem hil,
            List.getD_eq_getElem _ _ hi, List.getD_eq_getElem _ _ hil]
        · beta_reduce
          rw [Finset.sum_Ico_succ_top h1, ht]; ring)
    have e : l + (x.length - l) = x.length := by omega
    rw [e] at hP
    unfold acc_lag
    rw [ht, hP]
  · have e : x.length - l = 0 := by omega
    unfold acc_lag
    rw [e, forLoop_zero, Finset.Ico_eq_empty (by omega)]
    simp

theorem autocorrelation_lag_eq (x r : List ℚ) (l : Nat) (hN : 1 ≤ x.length)
    (hl : l < r.length) :
    autocorrelation_lag x l r = some (r.set l (biased_estimator x l)) := by
  have hne : ((x.length : ℚ)) ≠ 0 := by
    have : (0 : ℚ) < (x.length : ℚ) := by exact_mod_cast hN
    exact ne_of_gt this
  unfold autocorrelation_lag
  rw [if_pos hl, acc_lag_eq]
  simp [fdiv, hne, biased_estimator]
  congr 1
  field_simp

theorem autocorrelation_loop (x r : List ℚ) (hN : 1 ≤ x.length) :
    ∃ t, forLoop (autocorrelation_lag x) 0 r.length r = some t ∧ t.length = r.length ∧
      ∀ l, l < r.length → t[l]? = some (biased_estimator x l) := by
  obtain ⟨t, ht, hP⟩ := forLoop_inv (autocorrelation_lag x)
    (fun i t => t.length = r.length ∧ ∀ l, l < i → t[l]? = some (biased_estimator x l))
    0 r.length r ⟨rfl, by intro l hl; omega⟩
    (by
      intro i t _ h2 hP
      obtain ⟨hlen, hval⟩ := hP
      have hi : i < t.length := by omega
      refine ⟨t.set i (biased_estimator x i), autocorrelation_lag_eq x t i hN hi, ?_, ?_⟩
      · simp [hlen]
      · intro l hl
        by_cases e : l = i
        · subst e; simp [hi]
        · rw [List.getElem?_set_ne (Ne.symm e)]
          exact hval l (by omega))
  simp only [Nat.zero_add] at hP
  exact ⟨t, ht, hP.1, hP.2⟩

theorem biased_estimator_zero (x : List ℚ) :
    biased_estimator x 0
      = (1 / (x.length : ℚ)) * ∑ n in Finset.range x.length, (x.getD n 0) ^ 2 := by
  unfold biased_estimator
  rw [Finset.range_eq_Ico]
  congr 1
  apply Finset.sum_congr rfl
  intro n _
  simp [pow_two]

/-- What `autocorrelation` returns, in terms of the reference estimator: the
vector keeps its length, every entry is the estimator at its lag, and a zero
at lag 0 is replaced by the floor. -/
theorem autocorrelation_eq (x r : List ℚ) (hN : 1 ≤ x.length) (hM : 1 ≤ r.length) :
    ∃ r', autocorrelation x r = some r' ∧ r'.length = r.length ∧
      (∀ l, 1 ≤ l → l < r.length → r'[l]? = some (biased_estimator x l)) ∧
      r'[0]? = some (if biased_estimator x 0 = 0 then r0_floor else biased_estimator x 0) := by
  obtain ⟨t, ht, hlen, hval⟩ := autocorrelation_loop x r hN
  have h0 := hval 0 (by omega)
  have ht0 : 0 < t.length := by omega
  unfold autocorrelation
  rw [ht]
  simp only [Option.bind_eq_bind, Option.some_bind, h0]
  by_cases hz : biased_estimator x 0 = 0
  · refine ⟨t.set 0 r0_floor, by simp [hz], by simp [hlen], ?_, ?_⟩
    · intro l h1 h2
      rw [List.getElem?_set_ne (by omega)]
      exact hval l h2
    · simp [hz, ht0]
  · refine ⟨t, by simp [hz], hlen, fun l _ h2 => hval l h2, by simp [hz, h0]⟩

/-- C1. `PitchAnalyzer::autocorrelation` computes the biased estimator: for a
frame `x` of length `N ≥ 1` and an output vector `r` of length `M ≥ 1` (the
bound `M ≤ N` of the contract is not needed), the call has a value `r'` of
length `M`, with `r'[l] = (1/N) * Σ_{n=l}^{N-1} x[n]*x[n-l]` for `1 ≤ l < M`,
and `r'[0] = (1/N) * Σ_{n=0}^{N-1} x[n]^2` unless that value is 0, in which
case `r'[0] = 1e-10`. -/
theorem autocorrelation_biased (x r : List ℚ) (hN : 1 ≤ x.length) (hM : 1 ≤ r.length) :
    ∃ r', autocorrelation x r = some r' ∧ r'.length = r.length ∧
      (∀ l, 1 ≤ l → l < r.length →
        r'[l]? = some ((1 / (x.length : ℚ)) *
          ∑ n in Finset.Ico l x.length, x.getD n 0 * x.getD (n - l) 0)) ∧
      r'[0]? = some
        (if (1 / (x.length : ℚ)) * ∑ n in Finset.range x.length, (x.getD n 0) ^ 2 = 0
         then 1 / 10000000000
         else (1 / (x.length : ℚ)) * ∑ n in Finset.range x.length, (x.getD n 0) ^ 2) := by
  obtain ⟨r', h1, h2, h3, h4⟩ := autocorrelation_eq x r hN hM
  refine ⟨r', h1, h2, h3, ?_⟩
  rw [h4, biased_estimator_zero]
  rfl

/-- Witness of C1 on the frame `[1, 2, 3]` with two lags. -/
theorem autocorrelation_biased_witness :
    ∃ r', autocorrelation [1, 2, 3] [0, 0] = some r' ∧ r'.length = ([0, 0] : List ℚ).length ∧
      (∀ l, 1 ≤ l → l < ([0, 0] : List ℚ).length →
        r'[l]? = some ((1 / (([1, 2, 3] : List ℚ).length : ℚ)) *
          ∑ n in Finset.Ico l ([1, 2, 3] : List ℚ).length,
            ([1, 2, 3] : List ℚ).getD n 0 * ([1, 2, 3] : List ℚ).getD (n - l) 0)) ∧
      r'[0]? = some
        (if (1 / (([1, 2, 3] : List ℚ).length : ℚ)) *
              ∑ n in Finset.range ([1, 2, 3] : List ℚ).length,
                (([1, 2, 3] : List ℚ).getD n 0) ^ 2 = 0
         then 1 / 10000000000
         else (1 / (([1, 2, 3] : List ℚ).length : ℚ)) *
              ∑ n in Finset.range ([1, 2, 3] : List ℚ).length,
                (([1, 2, 3] : List ℚ).getD n 0) ^ 2) :=
  autocorrelation_biased [1, 2, 3] [0, 0] (by decide) (by decide)

end upc

/-! ## Lag search and voicing rule -/

namespace upc

/-- The lag search has a value, inside the range, at the first maximum of `r`
on the range. -/
theorem lag_search_spec (r : List ℚ) (npitch_min npitch_max : Nat)
    (hlen : r.length = npitch_max) (hrange : npitch_min < npitch_max) :
    ∃ lag, lag_search r npitch_min npitch_max = some lag ∧
      npitch_min ≤ lag ∧ lag < npitch_max ∧
      (∀ k, npitch_min ≤ k → k < npitch_max → r.getD k 0 ≤ r.getD lag 0) ∧
      (∀ k, npitch_min ≤ k → k < lag → r.getD k 0 < r.getD lag 0) := by
  obtain ⟨m, hm, hP⟩ := forLoop_inv
    (fun iR iRMax => do
      let v ← r[iR]?
      let m ← r[iRMax]?
      if v > m then pure iR else pure iRMax)
    (fun i m => npitch_min ≤ m ∧ m < npitch_max ∧
      (∀ k, npitch_min ≤ k → k < i → r.getD k 0 ≤ r.getD m 0) ∧
      (∀ k, npitch_min ≤ k → k < m → r.getD k 0 < r.getD m 0))
    npitch_min (npitch_max - npitch_min) npitch_min
    ⟨le_refl _, hrange, by intro k h1 h2; omega, by intro k h1 h2; omega⟩
    (by
      intro i m h1 h2 hP
      obtain ⟨hm1, hm2, hle, hlt⟩ := hP
      have hi : i < r.length := by omega
      have hmr : m < r.length := by omega
      by_cases hgt : r.getD i 0 > r.getD m 0
      · refine ⟨i, ?_, h1, by omega, ?_, ?_⟩
        · have hgt' := hgt
          rw [List.getD_eq_getElem _ _ hi, List.getD_eq_getElem _ _ hmr] at hgt'
          simp [List.getElem?_eq_getElem hi, List.getElem?_eq_getElem hmr, hgt']
        · intro k hk1 hk2
          by_cases e : k = i
          · subst e; exact le_refl _
          · exact le_of_lt (lt_of_le_of_lt (hle k hk1 (by omega)) hgt)
        · intro k hk1 hk2
          exact lt_of_le_of_lt (hle k hk1 hk2) hgt
      · refine ⟨m, ?_, hm1, hm2, ?_, hlt⟩
        · have hgt' := hgt
          rw [List.getD_eq_getElem _ _ hi, List.getD_eq_getElem _ _ hmr] at hgt'
          simp [List.getElem?_eq_getElem hi, List.getElem?_eq_getElem hmr, hgt']
        · intro k hk1 hk2
          by_cases e : k = i
          · subst e; exact not_lt.mp hgt
          · exact hle k hk1 (by omega))
  have e : npitch_min + (npitch_max - npitch_min) = npitch_max := by omega
  rw [e] at hP
  exact ⟨m, hm, hP.1, hP.2.1, hP.2.2.1, hP.2.2.2⟩

/-- C2. The lag search of `compute_pitch` returns the first maximiser of `r`
on the pitch range: for `r` of length `npitch_max` and
`npitch_min < npitch_max` the chosen lag satisfies
`npitch_min ≤ lag < npitch_max`, `r[lag] ≥ r[k]` for every `k` of the range,
and `r[k] < r[lag]` for every `k` of the range below `lag`. -/
theorem lag_search_first_max (r : List ℚ) (npitch_min npitch_max : Nat)
    (hlen : r.length = npitch_max) (hrange : npitch_min < npitch_max) :
    ∃ lag, lag_search r npitch_min npitch_max = some lag ∧
      npitch_min ≤ lag ∧ lag < npitch_max ∧
      (∀ k, npitch_min ≤ k → k < npitch_max → r.getD k 0 ≤ r.getD lag 0) ∧
      (∀ k, npitch_min ≤ k → k < lag → r.getD k 0 < r.getD lag 0) :=
  lag_search_spec r npitch_min npitch_max hlen hrange

/-- Witness of C2: lags 0 and 1 hold the global maximum and the tie between
lags 3 and 4 goes to lag 3. -/
theorem lag_search_first_max_witness :
    ∃ lag, lag_search [9, 9, 1, 5, 5, 2] 2 6 = some lag ∧
      2 ≤ lag ∧ lag < 6 ∧
      (∀ k, 2 ≤ k → k < 6 →
        ([9, 9, 1, 5, 5, 2] : List ℚ).getD k 0 ≤ ([9, 9, 1, 5, 5, 2] : List ℚ).getD lag 0) ∧
      (∀ k, 2 ≤ k → k < lag →
        ([9, 9, 1, 5, 5, 2] : List ℚ).getD k 0 < ([9, 9, 1, 5, 5, 2] : List ℚ).getD lag 0) :=
  lag_search_first_max [9, 9, 1, 5, 5, 2] 2 6 (by decide) (by decide)

/-- The classifier answers voiced exactly when the four strict tests hold. -/
theorem unvoiced_eq_false_iff (a : PitchAnalyzer) (zcr r1norm rmaxnorm pot : ℚ) :
    unvoiced a zcr r1norm rmaxnorm pot = false ↔
      (rmaxnorm > a.r2maxth ∧ r1norm > a.r1r0th ∧ zcr < a.zcrth ∧ pot > a.potth) := by
  unfold unvoiced
  by_cases h1 : rmaxnorm > a.r2maxth <;> by_cases h2 : r1norm > a.r1r0th <;>
    by_cases h3 : zcr < a.zcrth <;> by_cases h4 : pot > a.potth <;> simp [h1, h2, h3, h4]

/-- C3. The voicing classifier is an AND of four strict tests:
`PitchAnalyzer::unvoiced` returns false (voiced) if and only if
`rmaxnorm > r2maxth`, `r1norm > r1r0th`, `zcr < zcrth` and `pot > potth` all
hold, and returns true (unvoiced) if and only if one of them fails, equality
with the threshold included. -/
theorem unvoiced_and_of_four (a : PitchAnalyzer) (zcr r1norm rmaxnorm pot : ℚ) :
    (unvoiced a zcr r1norm rmaxnorm pot = false ↔
      (rmaxnorm > a.r2maxth ∧ r1norm > a.r1r0th ∧ zcr < a.zcrth ∧ pot > a.potth)) ∧
    (unvoiced a zcr r1norm rmaxnorm pot = true ↔
      (rmaxnorm ≤ a.r2maxth ∨ r1norm ≤ a.r1r0th ∨ a.zcrth ≤ zcr ∨ pot ≤ a.potth)) := by
  refine ⟨unvoiced_eq_false_iff a zcr r1norm rmaxnorm pot, ?_⟩
  have h := unvoiced_eq_false_iff a zcr r1norm rmaxnorm pot
  constructor
  · intro ht
    by_contra hcon
    simp only [not_or, not_le] at hcon
    have := h.mpr ⟨hcon.1, hcon.2.1, hcon.2.2.1, hcon.2.2.2⟩
    rw [ht] at this
    exact Bool.noConfusion this
  · intro hor
    cases hu : unvoiced a zcr r1norm rmaxnorm pot with
    | true => rfl
    | false =>
      obtain ⟨h1, h2, h3, h4⟩ := h.mp hu
      rcases hor with h' | h' | h' | h'
      · exact absurd h1 (not_lt.mpr h')
      · exact absurd h2 (not_lt.mpr h')
      · exact absurd h3 (not_lt.mpr h')
      · exact absurd h4 (not_lt.mpr h')

end upc

/-! ## Construction and class invariant -/

namespace upc

theorem set_f0_range_inv (a b : PitchAnalyzer) (min_F0 max_F0 : ℚ)
    (h : set_f0_range a min_F0 max_F0 = some b) :
    b.window = a.window ∧ b.frameLen = a.frameLen ∧ 2 ≤ b.npitch_min ∧
      b.npitch_max ≤ b.frameLen / 2 := by
  unfold set_f0_range at h
  simp only [Option.bind_eq_bind, Option.bind_eq_some, Option.pure_def, Option.some.injEq] at h
  obtain ⟨q, -, n, -, q', -, m, -, hb⟩ := h
  subst hb
  refine ⟨rfl, rfl, ?_, ?_⟩
  · dsimp only
    split <;> omega
  · dsimp only
    split <;> omega

theorem set_window_inv (cos : ℚ → ℚ) (M_PI : ℚ) (a b : PitchAnalyzer) (w : Window)
    (h : set_window cos M_PI a w = some b) (ha : a.frameLen = 0 → a.window.length = 0) :
    b.window.length = b.frameLen ∧ b.frameLen = a.frameLen ∧ b.npitch_min = a.npitch_min ∧
      b.npitch_max = a.npitch_max := by
  unfold set_window at h
  by_cases h0 : a.frameLen = 0
  · rw [if_pos h0] at h
    have := Option.some.inj h
    subst this
    exact ⟨by rw [h0, ha h0], rfl, rfl, rfl⟩
  · rw [if_neg h0] at h
    cases w with
    | RECT =>
      have := Option.some.inj h
      subst this
      exact ⟨by simp, rfl, rfl, rfl⟩
    | HAMMING =>
      simp only [Option.bind_eq_bind, Option.bind_eq_some, Option.pure_def,
        Option.some.injEq] at h
      obtain ⟨win, hwin, hb⟩ := h
      subst hb
      refine ⟨?_, rfl, rfl, rfl⟩
      have := forLoop_inv_of_some _ (fun _ (u : List ℚ) => u.length = a.frameLen) 0 a.frameLen
        (resize a.window a.frameLen) win
        (by simp [resize, List.length_take]; omega)
        (by
          intro i u u' hu hlen
          simp only [Option.bind_eq_bind, Option.bind_eq_some, Option.pure_def] at hu
          obtain ⟨arg, -, hu⟩ := hu
          split at hu
          · have := Option.some.inj hu
            subst this
            simpa using hlen
          · exact Option.noConfusion hu)
        hwin
      exact this

/-- The class invariant that the constructor establishes. -/
theorem init_inv (cos : ℚ → ℚ) (M_PI : ℚ) (fLen sFreq : Nat) (w : Window)
    (min_F0 max_F0 r2maxth_ r1r0th_ zcrth_ potth_ : ℚ) (a : PitchAnalyzer)
    (h : PitchAnalyzer.init cos M_PI fLen sFreq w min_F0 max_F0 r2maxth_ r1r0th_ zcrth_ potth_
      = some a) :
    a.window.length = a.frameLen ∧ 2 ≤ a.npitch_min ∧ a.npitch_max ≤ a.frameLen / 2 := by
  unfold PitchAnalyzer.init at h
  simp only [Option.bind_eq_bind, Option.bind_eq_some] at h
  obtain ⟨b, hb, hw⟩ := h
  obtain ⟨h1, h2, h3, h4⟩ := set_f0_range_inv _ b min_F0 max_F0 hb
  obtain ⟨g1, g2, g3, g4⟩ := set_window_inv cos M_PI b a w hw (by intro _; rw [h1]; rfl)
  exact ⟨g1, by omega, by rw [g4, g2]; exact h4⟩

/-- The analyzer `rect6` is the one the constructor call of `main` returns for
frames of 6 samples at 200 Hz with the range 50..500 Hz. -/
theorem rect6_init (cos : ℚ → ℚ) (M_PI : ℚ) :
    PitchAnalyzer.init cos M_PI 6 200 Window.RECT 50 500 0 0 0 0 = some rect6 := by
  have f1 : ⌊(200 : ℚ) / 500⌋ = 0 := by
    rw [Int.floor_eq_iff]; norm_num
  have f2 : ⌊(200 : ℚ) / 50⌋ = 4 := by
    rw [Int.floor_eq_iff]; norm_num
  have e1 : fdiv (200 : ℚ) 500 = some (200 / 500) := by
    norm_num [fdiv]
  have e2 : fdiv (200 : ℚ) 50 = some (200 / 50) := by
    norm_num [fdiv]
  have u1 : float_to_unsigned ((200 : ℚ) / 500) = some 0 := by
    unfold float_to_unsigned
    rw [if_pos (by norm_num), f1]; rfl
  have u2 : float_to_unsigned ((200 : ℚ) / 50) = some 4 := by
    unfold float_to_unsigned
    rw [if_pos (by norm_num), f2]; rfl
  simp [PitchAnalyzer.init, set_f0_range, set_window, e1, e2, u1, u2, rect6]

end upc

/-! ## The frame estimator -/

namespace upc

theorem apply_window_eq (w x : List ℚ) (hw : w.length = x.length) :
    apply_window w x = some (List.zipWith (fun xi wi => xi * wi) x w) := by
  obtain ⟨t, ht, hP⟩ := forLoop_inv
    (fun i x => do
      let xi ← x[i]?
      let wi ← w[i]?
      pure (x.set i (xi * wi)))
    (fun i t => t.length = x.length ∧
      (∀ j, j < i → t[j]? = (List.zipWith (fun xi wi => xi * wi) x w)[j]?) ∧
      (∀ j, i ≤ j → t[j]? = x[j]?))
    0 x.length x ⟨rfl, by intro j hj; omega, by intro j _; rfl⟩
    (by
      intro i t _ h2 hP
      obtain ⟨hlen, hlo, hhi⟩ := hP
      have hi : i < x.length := by omega
      have hit : i < t.length := by omega
      have hiw : i < w.length := by omega
      have hti : t[i]? = some x[i] := by rw [hhi i (le_refl _), List.getElem?_eq_getElem hi]
      refine ⟨t.set i (x[i] * w[i]), ?_, ?_, ?_, ?_⟩
      · simp [hti, List.getElem?_eq_getElem hiw]
      · simp [hlen]
      · intro j hj
        by_cases e : j = i
        · subst e
          simp [hit, List.getElem?_zipWith, List.getElem?_eq_getElem hi,
            List.getElem?_eq_getElem hiw]
        · rw [List.getElem?_set_ne (Ne.symm e)]
          exact hlo j (by omega)
      · intro j hj
        rw [List.getElem?_set_ne (by omega)]
        exact hhi j (by omega))
  simp only [Nat.zero_add] at hP
  unfold apply_window
  rw [ht]
  congr 1
  apply List.ext_getElem?
  intro j
  by_cases hj : j < x.length
  · exact hP.2.1 j hj
  · rw [List.getElem?_eq_none (by omega), List.getElem?_eq_none (by simp; omega)]

theorem biased_estimator_zero_nonneg (x : List ℚ) : 0 ≤ biased_estimator x 0 := by
  rw [biased_estimator_zero]
  apply mul_nonneg
  · positivity
  · apply Finset.sum_nonneg
    intro n _
    positivity


/-- The value of `compute_pitch` on a frame of the right length, for an
analyzer that satisfies the class invariant and has a non-empty lag range. -/
theorem compute_pitch_eq (log10 : ℚ → ℚ) (a : PitchAnalyzer) (x : List ℚ) (zcr : ℚ)
    (hx : x.length = a.frameLen) (hw : a.window.length = a.frameLen)
    (hmin : 2 ≤ a.npitch_min) (hmax : a.npitch_max ≤ a.frameLen / 2)
    (hrange : a.npitch_min < a.npitch_max) :
    ∃ r lag r0 r1 rlag,
      autocorrelation (List.zipWith (fun xi wi => xi * wi) x a.window)
        (List.replicate a.npitch_max 0) = some r ∧
      lag_search r a.npitch_min a.npitch_max = some lag ∧
      r[0]? = some r0 ∧ r[1]? = some r1 ∧ r[lag]? = some rlag ∧
      0 < r0 ∧ a.npitch_min ≤ lag ∧ lag < a.npitch_max ∧
      compute_pitch log10 a x zcr = some
        (if unvoiced a zcr (r1 / r0) (rlag / r0) (10 * log10 r0) = true then 0
         else (a.samplingFreq : ℚ) / (lag : ℚ)) := by
  have hN : 1 ≤ (List.zipWith (fun xi wi => xi * wi) x a.window).length := by
    simp [hx, hw]; omega
  obtain ⟨r, hr, hrlen, -, hr0⟩ := autocorrelation_eq
    (List.zipWith (fun xi wi => xi * wi) x a.window) (List.replicate a.npitch_max 0) hN
    (by simp; omega)
  simp only [List.length_replicate] at hrlen
  obtain ⟨lag, hlag, hl1, hl2, -, -⟩ := lag_search_spec r a.npitch_min a.npitch_max hrlen hrange
  have h1 : 1 < r.length := by omega
  have hl : lag < r.length := by omega
  obtain ⟨r0, hr0, hpos⟩ : ∃ r0, r[0]? = some r0 ∧ 0 < r0 := by
    refine ⟨_, hr0, ?_⟩
    split
    · unfold r0_floor; norm_num
    · rename_i hne
      exact lt_of_le_of_ne (biased_estimator_zero_nonneg _) (Ne.symm hne)
  have hlagne : ((lag : ℚ)) ≠ 0 := by
    have : (0 : ℚ) < (lag : ℚ) := by exact_mod_cast (show 0 < lag by omega)
    exact ne_of_gt this
  refine ⟨r, lag, r0, r[1], r[lag], hr, hlag, hr0, List.getElem?_eq_getElem h1,
    List.getElem?_eq_getElem hl, hpos, hl1, hl2, ?_⟩
  unfold compute_pitch
  rw [if_neg (by simpa using hx), apply_window_eq _ _ (by omega)]
  simp only [Option.bind_eq_bind, Option.some_bind, hr, hlag, hr0, flog10, if_pos hpos,
    List.getElem?_eq_getElem h1, List.getElem?_eq_getElem hl, fdiv, if_neg (ne_of_gt hpos),
    if_neg hlagne]
  by_cases hu : unvoiced a zcr (r[1] / r0) (r[lag] / r0) (10 * log10 r0) = true <;> simp [hu]


/-- On a frame of the right length the estimate is 0 or positive. -/
theorem compute_pitch_zero_or_pos (log10 : ℚ → ℚ) (a : PitchAnalyzer) (x : List ℚ) (zcr : ℚ)
    (hx : x.length = a.frameLen) (hw : a.window.length = a.frameLen)
    (hmin : 2 ≤ a.npitch_min) (hmax : a.npitch_max ≤ a.frameLen / 2)
    (hrange : a.npitch_min < a.npitch_max) :
    ∃ v, compute_pitch log10 a x zcr = some v ∧ (v = 0 ∨ 0 < v) := by
  obtain ⟨r, lag, r0, r1, rlag, -, -, -, -, -, -, hl1, -, hc⟩ :=
    compute_pitch_eq log10 a x zcr hx hw hmin hmax hrange
  refine ⟨_, hc, ?_⟩
  split
  · exact Or.inl rfl
  · have hlag : (0 : ℚ) < (lag : ℚ) := by exact_mod_cast (show 0 < lag by omega)
    rcases Nat.eq_zero_or_pos a.samplingFreq with h0 | h0
    · left; simp [h0]
    · right
      have : (0 : ℚ) < (a.samplingFreq : ℚ) := by exact_mod_cast h0
      positivity

/-- C5. The estimator signals a frame-length mismatch by the sentinel -1 and
by nothing else: for an analyzer that satisfies the class invariant
(`window` of length `frameLen`, `npitch_min ≥ 2`, `npitch_max ≤ frameLen/2`)
and has a non-empty lag range, each public entry point (vector,
pointer+length over an array that holds the `N` values, iterator pair inside
a vector) returns -1 if and only if the length of the frame differs from
`frameLen`; when the length matches, the result is 0 or strictly positive. -/
theorem sentinel_iff_length_mismatch (log10 : ℚ → ℚ) (a : PitchAnalyzer) (zcr : ℚ)
    (hw : a.window.length = a.frameLen)
    (hmin : 2 ≤ a.npitch_min) (hmax : a.npitch_max ≤ a.frameLen / 2)
    (hrange : a.npitch_min < a.npitch_max) :
    (∀ x : List ℚ,
      (call_vector log10 a x zcr = some (-1) ↔ x.length ≠ a.frameLen) ∧
      (x.length = a.frameLen →
        ∃ v, call_vector log10 a x zcr = some v ∧ (v = 0 ∨ 0 < v))) ∧
    (∀ (mem : List ℚ) (N : Nat), N ≤ mem.length →
      (call_pointer log10 a mem N zcr = some (-1) ↔ N ≠ a.frameLen) ∧
      (N = a.frameLen →
        ∃ v, call_pointer log10 a mem N zcr = some v ∧ (v = 0 ∨ 0 < v))) ∧
    (∀ (buf : List ℚ) (b e : Nat), e ≤ buf.length →
      (call_range log10 a buf b e zcr = some (-1) ↔ (e : Int) - (b : Int) ≠ (a.frameLen : Int)) ∧
      ((e : Int) - (b : Int) = (a.frameLen : Int) →
        ∃ v, call_range log10 a buf b e zcr = some v ∧ (v = 0 ∨ 0 < v))) := by
  have key : ∀ x : List ℚ, x.length = a.frameLen →
      (∃ v, compute_pitch log10 a x zcr = some v ∧ (v = 0 ∨ 0 < v)) ∧
      compute_pitch log10 a x zcr ≠ some (-1) := by
    intro x hx
    obtain ⟨v, hv, hsign⟩ := compute_pitch_zero_or_pos log10 a x zcr hx hw hmin hmax hrange
    refine ⟨⟨v, hv, hsign⟩, ?_⟩
    rw [hv]
    intro h
    have hv1 : v = -1 := Option.some.inj h
    rcases hsign with h0 | h0
    · rw [hv1] at h0; norm_num at h0
    · rw [hv1] at h0; norm_num at h0
  refine ⟨?_, ?_, ?_⟩
  · intro x
    by_cases hx : x.length = a.frameLen
    · have hk := key x hx
      have e : call_vector log10 a x zcr = compute_pitch log10 a x zcr := by
        unfold call_vector; rw [if_neg (by simpa using hx)]
      rw [e]
      exact ⟨⟨fun h => absurd h hk.2, fun h => absurd hx h⟩, fun _ => hk.1⟩
    · have e : call_vector log10 a x zcr = some (-1) := by
        unfold call_vector; rw [if_pos hx]
      rw [e]
      exact ⟨⟨fun _ => hx, fun _ => rfl⟩, fun h => absurd h hx⟩
  · intro mem N hN
    by_cases hx : N = a.frameLen
    · have hlen : (mem.take N).length = a.frameLen := by simp [List.length_take]; omega
      have hk := key (mem.take N) hlen
      have e : call_pointer log10 a mem N zcr = compute_pitch log10 a (mem.take N) zcr := by
        unfold call_pointer; rw [if_neg (by simpa using hx), if_neg (by omega)]
      rw [e]
      exact ⟨⟨fun h => absurd h hk.2, fun h => absurd hx h⟩, fun _ => hk.1⟩
    · have e : call_pointer log10 a mem N zcr = some (-1) := by
        unfold call_pointer; rw [if_pos hx]
      rw [e]
      exact ⟨⟨fun _ => hx, fun _ => rfl⟩, fun h => absurd h hx⟩
  · intro buf b e he
    by_cases hx : (e : Int) - (b : Int) = (a.frameLen : Int)
    · have hlen : ((buf.drop b).take (e - b)).length = a.frameLen := by
        simp [List.length_take, List.length_drop]; omega
      have hk := key _ hlen
      have e' : call_range log10 a buf b e zcr
          = compute_pitch log10 a ((buf.drop b).take (e - b)) zcr := by
        unfold call_range; rw [if_neg (by simpa using hx), if_neg (by omega)]
      rw [e']
      exact ⟨⟨fun h => absurd h hk.2, fun h => absurd hx h⟩, fun _ => hk.1⟩
    · have e' : call_range log10 a buf b e zcr = some (-1) := by
        unfold call_range; rw [if_pos hx]
      rw [e']
      exact ⟨⟨fun _ => hx, fun _ => rfl⟩, fun h => absurd h hx⟩
end upc

namespace upc

/-- C4. For an analyzer that satisfies the class invariant and has a non-empty
lag range, and a frame `x` of length `frameLen`: with `r` the autocorrelation
of the windowed frame (the pointwise product of `x` and the window table)
over `npitch_max` lags and `lag` the selected lag, `compute_pitch` returns 0
when `unvoiced(zcr, r[1]/r[0], r[lag]/r[0], 10*log10(r[0]))` is true and
`samplingFreq / lag` otherwise. -/
theorem compute_pitch_decided (log10 : ℚ → ℚ) (a : PitchAnalyzer) (x : List ℚ) (zcr : ℚ)
    (hx : x.length = a.frameLen) (hw : a.window.length = a.frameLen)
    (hmin : 2 ≤ a.npitch_min) (hmax : a.npitch_max ≤ a.frameLen / 2)
    (hrange : a.npitch_min < a.npitch_max) :
    ∃ r lag r0 r1 rlag,
      autocorrelation (List.zipWith (fun xi wi => xi * wi) x a.window)
        (List.replicate a.npitch_max 0) = some r ∧
      lag_search r a.npitch_min a.npitch_max = some lag ∧
      r[0]? = some r0 ∧ r[1]? = some r1 ∧ r[lag]? = some rlag ∧
      compute_pitch log10 a x zcr = some
        (if unvoiced a zcr (r1 / r0) (rlag / r0) (10 * log10 r0) = true then 0
         else (a.samplingFreq : ℚ) / (lag : ℚ)) := by
  obtain ⟨r, lag, r0, r1, rlag, h1, h2, h3, h4, h5, -, -, -, h6⟩ :=
    compute_pitch_eq log10 a x zcr hx hw hmin hmax hrange
  exact ⟨r, lag, r0, r1, rlag, h1, h2, h3, h4, h5, h6⟩

/-- Witness of C4 on the analyzer `rect6` and the frame `[1, 2, 3, 4, 5, 6]`. -/
theorem compute_pitch_decided_witness :
    ∃ r lag r0 r1 rlag,
      autocorrelation (List.zipWith (fun xi wi => xi * wi) [1, 2, 3, 4, 5, 6] rect6.window)
        (List.replicate rect6.npitch_max 0) = some r ∧
      lag_search r rect6.npitch_min rect6.npitch_max = some lag ∧
      r[0]? = some r0 ∧ r[1]? = some r1 ∧ r[lag]? = some rlag ∧
      compute_pitch (fun _ => 0) rect6 [1, 2, 3, 4, 5, 6] 0 = some
        (if unvoiced rect6 0 (r1 / r0) (rlag / r0) (10 * (fun _ => (0 : ℚ)) r0) = true then 0
         else (rect6.samplingFreq : ℚ) / (lag : ℚ)) :=
  compute_pitch_decided (fun _ => 0) rect6 [1, 2, 3, 4, 5, 6] 0
    (by decide) (by decide) (by decide) (by decide) (by decide)

/-- Witness of C5 on the analyzer `rect6`. -/
theorem sentinel_iff_length_mismatch_witness :
    (∀ x : List ℚ,
      (call_vector (fun _ => 0) rect6 x 0 = some (-1) ↔ x.length ≠ rect6.frameLen) ∧
      (x.length = rect6.frameLen →
        ∃ v, call_vector (fun _ => 0) rect6 x 0 = some v ∧ (v = 0 ∨ 0 < v))) ∧
    (∀ (mem : List ℚ) (N : Nat), N ≤ mem.length →
      (call_pointer (fun _ => 0) rect6 mem N 0 = some (-1) ↔ N ≠ rect6.frameLen) ∧
      (N = rect6.frameLen →
        ∃ v, call_pointer (fun _ => 0) rect6 mem N 0 = some v ∧ (v = 0 ∨ 0 < v))) ∧
    (∀ (buf : List ℚ) (b e : Nat), e ≤ buf.length →
      (call_range (fun _ => 0) rect6 buf b e 0 = some (-1) ↔
        (e : Int) - (b : Int) ≠ (rect6.frameLen : Int)) ∧
      ((e : Int) - (b : Int) = (rect6.frameLen : Int) →
        ∃ v, call_range (fun _ => 0) rect6 buf b e 0 = some v ∧ (v = 0 ∨ 0 < v))) :=
  sentinel_iff_length_mismatch (fun _ => 0) rect6 0
    (by decide) (by decide) (by decide) (by decide)

end upc

/-! ## Central clipping -/

namespace get_pitch
open upc

theorem clip_sample_pos (Cl s : ℚ) (hs : 0 < s) (h : Cl ≤ |s|) : clip_sample Cl s = s - Cl := by
  unfold clip_sample
  rw [if_neg (not_lt.mpr h), if_neg (not_lt.mpr (le_of_lt hs)), if_pos hs]
  push_cast
  ring

theorem clip_sample_neg (Cl s : ℚ) (hs : s < 0) (h : Cl ≤ |s|) : clip_sample Cl s = s + Cl := by
  unfold clip_sample
  rw [if_neg (not_lt.mpr h), if_pos hs, if_neg (not_lt.mpr (le_of_lt hs))]
  push_cast
  ring

theorem clip_sample_small (Cl s : ℚ) (h : |s| < Cl) : clip_sample Cl s = 0 := by
  unfold clip_sample
  rw [if_pos h]

theorem clip_sample_zero (Cl : ℚ) : clip_sample Cl 0 = 0 := by
  unfold clip_sample
  split <;> simp

theorem clip_sample_abs (Cl s : ℚ) (hCl : 0 ≤ Cl) :
    |clip_sample Cl s| = max (|s| - Cl) 0 ∧ 0 ≤ s * clip_sample Cl s := by
  by_cases h : |s| < Cl
  · rw [clip_sample_small Cl s h]
    refine ⟨?_, by simp⟩
    rw [abs_zero, max_eq_right (by linarith)]
  · have h' : Cl ≤ |s| := not_lt.mp h
    rcases lt_trichotomy s 0 with hs | hs | hs
    · rw [clip_sample_neg Cl s hs h']
      have e : |s| = -s := abs_of_neg hs
      rw [e] at h' ⊢
      have hle : s + Cl ≤ 0 := by linarith
      refine ⟨?_, ?_⟩
      · rw [abs_of_nonpos hle, max_eq_left (by linarith)]; ring
      · exact mul_nonneg_of_nonpos_of_nonpos (le_of_lt hs) hle
    · subst hs
      rw [clip_sample_zero]
      simp only [abs_zero] at h'
      have e : Cl = 0 := le_antisymm h' hCl
      simp [e]
    · rw [clip_sample_pos Cl s hs h']
      have e : |s| = s := abs_of_pos hs
      rw [e] at h' ⊢
      have hle : 0 ≤ s - Cl := by linarith
      refine ⟨?_, ?_⟩
      · rw [abs_of_nonneg hle, max_eq_left (by linarith)]
      · exact mul_nonneg (le_of_lt hs) hle

theorem scan_sample_eq (Cl : ℚ) (it : Nat) (s : Scan) (act : ℚ) (h : s.x[it]? = some act) :
    scan_sample Cl it s = some
      { x := s.x.set it (clip_sample Cl act), prev := act,
        aux := if act * s.prev < 0 then s.aux + 1 else s.aux } := by
  unfold scan_sample
  rw [h]
  rfl

/-- C6. The per-sample centre-clipping step implements the stated rule: for a
clip level `Cl ≥ 0` and a sample `act`, the loop body writes
`clip_sample Cl act` at the position it read, and that value is 0 when
`|act| < Cl`, `act - Cl` when `|act| ≥ Cl` and `act > 0`, `act + Cl` when
`|act| ≥ Cl` and `act < 0`, and 0 when `act = 0`; its magnitude is
`max(|act| - Cl, 0)` and it never has the opposite sign of `act`. -/
theorem central_clipping_rule (Cl act : ℚ) (hCl : 0 ≤ Cl) :
    (∀ (it : Nat) (s : Scan), s.x[it]? = some act →
      ∃ s', scan_sample Cl it s = some s' ∧ s'.x[it]? = some (clip_sample Cl act)) ∧
    (|act| < Cl → clip_sample Cl act = 0) ∧
    (Cl ≤ |act| → 0 < act → clip_sample Cl act = act - Cl) ∧
    (Cl ≤ |act| → act < 0 → clip_sample Cl act = act + Cl) ∧
    (act = 0 → clip_sample Cl act = 0) ∧
    |clip_sample Cl act| = max (|act| - Cl) 0 ∧
    0 ≤ act * clip_sample Cl act := by
  refine ⟨?_, clip_sample_small Cl act, fun h hs => clip_sample_pos Cl act hs h,
    fun h hs => clip_sample_neg Cl act hs h, ?_, (clip_sample_abs Cl act hCl).1,
    (clip_sample_abs Cl act hCl).2⟩
  · intro it s h
    refine ⟨_, scan_sample_eq Cl it s act h, ?_⟩
    have hlt : it < s.x.length := by
      by_contra hcon
      rw [List.getElem?_eq_none (by omega)] at h
      exact Option.noConfusion h
    simp [hlt]
  · intro h
    subst h
    exact clip_sample_zero Cl

/-- Witness of C6 at clip level 1 and sample -3. -/
theorem central_clipping_rule_witness :
    (∀ (it : Nat) (s : Scan), s.x[it]? = some (-3) →
      ∃ s', scan_sample 1 it s = some s' ∧ s'.x[it]? = some (clip_sample 1 (-3))) ∧
    (|(-3 : ℚ)| < 1 → clip_sample 1 (-3) = 0) ∧
    ((1 : ℚ) ≤ |(-3 : ℚ)| → (0 : ℚ) < -3 → clip_sample 1 (-3) = -3 - 1) ∧
    ((1 : ℚ) ≤ |(-3 : ℚ)| → (-3 : ℚ) < 0 → clip_sample 1 (-3) = -3 + 1) ∧
    ((-3 : ℚ) = 0 → clip_sample 1 (-3) = 0) ∧
    |clip_sample 1 (-3)| = max (|(-3 : ℚ)| - 1) 0 ∧
    0 ≤ (-3 : ℚ) * clip_sample 1 (-3) :=
  central_clipping_rule 1 (-3) zero_le_one
end get_pitch

/-! ## Framing and preprocessing -/

namespace get_pitch
open upc

theorem scan_frame_inv (Cl : ℚ) (n_len iX : Nat) (x : List ℚ) (h : iX + n_len ≤ x.length) :
    ∃ s, scan_frame Cl n_len iX x = some s ∧ s.x.length = x.length ∧
      (∀ k, iX ≤ k → k < iX + n_len → s.x[k]? = some (clip_sample Cl (x.getD k 0))) ∧
      (∀ k, (k < iX ∨ iX + n_len ≤ k) → s.x[k]? = x[k]?) ∧
      s.aux = ((∑ m in Finset.Ico (iX + 1) (iX + n_len),
        if x.getD (m - 1) 0 * x.getD m 0 < 0 then 1 else 0 : Nat) : ℚ) := by
  obtain ⟨s, hs, hP⟩ := forLoop_inv (scan_sample Cl)
    (fun i s => s.x.length = x.length ∧
      (∀ k, iX ≤ k → k < i → s.x[k]? = some (clip_sample Cl (x.getD k 0))) ∧
      (∀ k, (k < iX ∨ i ≤ k) → s.x[k]? = x[k]?) ∧
      s.prev = (if i = iX then 0 else x.getD (i - 1) 0) ∧
      s.aux = ((∑ m in Finset.Ico (iX + 1) i,
        if x.getD (m - 1) 0 * x.getD m 0 < 0 then 1 else 0 : Nat) : ℚ))
    iX n_len { x := x, prev := 0, aux := 0 }
    ⟨rfl, by intro k h1 h2; omega, by intro k _; rfl, by simp, by simp⟩
    (by
      intro i s h1 h2 hP
      obtain ⟨hlen, hin, hout, hprev, haux⟩ := hP
      have hi : i < x.length := by omega
      have hact : s.x[i]? = some (x.getD i 0) := by
        rw [hout i (Or.inr (le_refl _)), List.getElem?_eq_getElem hi, List.getD_eq_getElem _ _ hi]
      refine ⟨_, scan_sample_eq Cl i s _ hact, ?_, ?_, ?_, ?_, ?_⟩
      · simp [hlen]
      · intro k hk1 hk2
        by_cases e : k = i
        · subst e
          simp [hlen, hi]
        · dsimp only
          rw [List.getElem?_set_ne (Ne.symm e)]
          exact hin k hk1 (by omega)
      · intro k hk
        dsimp only
        rw [List.getElem?_set_ne (by omega)]
        exact hout k (by omega)
      · dsimp only
        rw [if_neg (by omega)]
        simp
      · dsimp only
        by_cases e : i = iX
        · subst e
          simp [hprev, haux]
        · have hle : iX + 1 ≤ i := by omega
          rw [Finset.sum_Ico_succ_top hle, haux, hprev, if_neg e, mul_comm (x.getD i 0)]
          split <;> simp)
  exact ⟨s, hs, hP.1, hP.2.1, hP.2.2.1, hP.2.2.2.2⟩

theorem frame_at_length (x : List ℚ) (iX n_len : Nat) (h : iX + n_len ≤ x.length) :
    (frame_at x iX n_len).length = n_len := by
  simp [frame_at, List.length_take, List.length_drop]; omega

theorem frame_at_getElem? (x : List ℚ) (iX n_len i : Nat) (hi : i < n_len) :
    (frame_at x iX n_len)[i]? = x[iX + i]? := by
  unfold frame_at
  rw [List.getElem?_take_of_lt hi, List.getElem?_drop]

theorem frame_at_getD (x : List ℚ) (iX n_len i : Nat) (hi : i < n_len) :
    (frame_at x iX n_len).getD i 0 = x.getD (iX + i) 0 := by
  simp only [List.getD_eq_getElem?_getD, frame_at_getElem? x iX n_len i hi]

theorem crossings_frame_at (x : List ℚ) (iX n_len : Nat) (h : iX + n_len ≤ x.length) :
    crossings (frame_at x iX n_len)
      = ∑ m in Finset.Ico (iX + 1) (iX + n_len),
          if x.getD (m - 1) 0 * x.getD m 0 < 0 then 1 else 0 := by
  unfold crossings
  rw [frame_at_length x iX n_len h]
  have e1 : iX + 1 = 1 + iX := by omega
  have e2 : iX + n_len = n_len + iX := by omega
  rw [e1, e2, ← Finset.sum_Ico_add']
  apply Finset.sum_congr rfl
  intro i hi
  rw [Finset.mem_Ico] at hi
  rw [frame_at_getD x iX n_len i (by omega), frame_at_getD x iX n_len (i - 1) (by omega)]
  have a1 : iX + (i - 1) = i + iX - 1 := by omega
  have a2 : iX + i = i + iX := by omega
  rw [a1, a2]

/-- What the per-sample loop does to the frame at offset `iX`. -/
theorem scan_frame_spec (Cl : ℚ) (n_len iX : Nat) (x : List ℚ) (h : iX + n_len ≤ x.length) :
    ∃ s, scan_frame Cl n_len iX x = some s ∧ s.x.length = x.length ∧
      frame_at s.x iX n_len = (frame_at x iX n_len).map (clip_sample Cl) ∧
      (∀ k, (k < iX ∨ iX + n_len ≤ k) → s.x[k]? = x[k]?) ∧
      s.aux = (crossings (frame_at x iX n_len) : ℚ) := by
  obtain ⟨s, hs, hlen, hin, hout, haux⟩ := scan_frame_inv Cl n_len iX x h
  refine ⟨s, hs, hlen, ?_, hout, ?_⟩
  · apply List.ext_getElem?
    intro i
    by_cases hi : i < n_len
    · rw [frame_at_getElem? _ _ _ _ hi, List.getElem?_map, frame_at_getElem? _ _ _ _ hi,
        hin (iX + i) (by omega) (by omega)]
      have hx : iX + i < x.length := by omega
      simp [List.getElem?_eq_getElem hx, List.getD_eq_getElem _ _ hx]
    · rw [List.getElem?_eq_none, List.getElem?_eq_none]
      · simp [frame_at_length x iX n_len h]; omega
      · rw [frame_at_length s.x iX n_len (by omega)]; omega
  · rw [haux, crossings_frame_at x iX n_len h]

theorem frame_loop_exit {α : Type} (est : List ℚ → Nat → Nat → ℚ → Option α) (Cl c : ℚ)
    (n_len n_shift fuel iX : Nat) (x : List ℚ) (f0 : List α) (h : ¬ iX + n_len < x.length) :
    frame_loop est Cl c n_len n_shift (fuel + 1) iX x f0 = some (x, f0) := by
  rw [frame_loop, if_neg h]

theorem frame_loop_record_step (Cl c : ℚ) (n_len n_shift fuel iX : Nat) (x : List ℚ)
    (f0 : List (List ℚ × ℚ)) (h : iX + n_len < x.length) :
    ∃ s, scan_frame Cl n_len iX x = some s ∧ s.x.length = x.length ∧
      frame_at s.x iX n_len = (frame_at x iX n_len).map (clip_sample Cl) ∧
      (∀ k, (k < iX ∨ iX + n_len ≤ k) → s.x[k]? = x[k]?) ∧
      frame_loop record_frame Cl c n_len n_shift (fuel + 1) iX x f0
        = frame_loop record_frame Cl c n_len n_shift fuel (iX + n_shift) s.x
            (f0 ++ [((frame_at x iX n_len).map (clip_sample Cl),
                     (crossings (frame_at x iX n_len) : ℚ) * c)]) := by
  obtain ⟨s, hs, hlen, hfr, hout, haux⟩ := scan_frame_spec Cl n_len iX x (by omega)
  refine ⟨s, hs, hlen, hfr, hout, ?_⟩
  rw [frame_loop, if_pos h, hs]
  simp only [Option.bind_eq_bind, Option.some_bind, record_frame]
  have e : iX + n_len - iX = n_len := by omega
  rw [e]
  have hfr' : List.take n_len (List.drop iX s.x) = frame_at s.x iX n_len := rfl
  rw [hfr', hfr, haux]

theorem frame_loop_record (Cl c : ℚ) (n_len n_shift : Nat) (x : List ℚ) (hs : 1 ≤ n_shift) :
    ∀ (fuel iX : Nat) (buf : List ℚ) (f0 : List (List ℚ × ℚ)),
      buf.length = x.length → 1 ≤ fuel → x.length < iX + fuel →
      ∃ buf' rest, frame_loop record_frame Cl c n_len n_shift fuel iX buf f0
          = some (buf', f0 ++ rest) ∧
        buf'.length = x.length ∧
        rest.length = (if iX + n_len < x.length
          then (x.length - 1 - n_len - iX) / n_shift + 1 else 0) ∧
        (iX + n_len < x.length →
          rest[0]? = some ((frame_at buf iX n_len).map (clip_sample Cl),
            (crossings (frame_at buf iX n_len) : ℚ) * c)) ∧
        (n_len ≤ n_shift → (∀ j, iX ≤ j → buf[j]? = x[j]?) →
          ∀ k, k < rest.length →
            rest[k]? = some ((frame_at x (iX + k * n_shift) n_len).map (clip_sample Cl),
              (crossings (frame_at x (iX + k * n_shift) n_len) : ℚ) * c)) := by
  intro fuel
  induction fuel with
  | zero => intro iX buf f0 _ h1 _; omega
  | succ fuel ih =>
    intro iX buf f0 hlen _ hfuel
    by_cases hc : iX + n_len < x.length
    · obtain ⟨s, -, hslen, -, hout, hstep⟩ :=
        frame_loop_record_step Cl c n_len n_shift fuel iX buf f0 (by omega)
      obtain ⟨buf', rest, hrun, hblen, hrlen, -, hrest⟩ :=
        ih (iX + n_shift) s.x
          (f0 ++ [((frame_at buf iX n_len).map (clip_sample Cl),
                   (crossings (frame_at buf iX n_len) : ℚ) * c)])
          (by omega) (by omega) (by omega)
      refine ⟨buf', ((frame_at buf iX n_len).map (clip_sample Cl),
          (crossings (frame_at buf iX n_len) : ℚ) * c) :: rest, ?_, hblen, ?_, ?_, ?_⟩
      · rw [hstep, hrun]; simp
      · rw [if_pos hc, List.length_cons, hrlen]
        by_cases hc' : iX + n_shift + n_len < x.length
        · rw [if_pos hc']
          have e : x.length - 1 - n_len - iX
              = (x.length - 1 - n_len - (iX + n_shift)) + n_shift := by
            omega
          rw [e, Nat.add_div_right _ (by omega)]
        · rw [if_neg hc']
          have e : (x.length - 1 - n_len - iX) / n_shift = 0 :=
            Nat.div_eq_of_lt (by omega)
          rw [e]
      · intro _; simp
      · intro hno hagree k hk
        have hfa : frame_at buf iX n_len = frame_at x iX n_len := by
          apply List.ext_getElem?
          intro i
          by_cases hi : i < n_len
          · rw [frame_at_getElem? _ _ _ _ hi, frame_at_getElem? _ _ _ _ hi]
            exact hagree _ (by omega)
          · rw [List.getElem?_eq_none, List.getElem?_eq_none]
            · rw [frame_at_length x iX n_len (by omega)]; omega
            · rw [frame_at_length buf iX n_len (by omega)]; omega
        cases k with
        | zero => simp [hfa]
        | succ k =>
          rw [List.getElem?_cons_succ]
          have := hrest hno (by
            intro j hj
            rw [hout j (Or.inr (by omega))]
            exact hagree j (by omega)) k (by simpa using hk)
          rw [this]
          have e : iX + n_shift + k * n_shift = iX + (k + 1) * n_shift := by ring
          rw [e]
    · refine ⟨buf, [], ?_, hlen, by rw [if_neg hc]; rfl, fun h => absurd h hc, ?_⟩
      · rw [frame_loop_exit _ _ _ _ _ _ _ _ _ (by omega)]; simp
      · intro _ _ k hk; simp at hk

/-! Evaluation of the loop on the signal `[4, 4, 4, 4, -1, 2, 4, 4, 4, 0]` at
clip level 1. -/

theorem clip_m1 : clip_sample 1 (-1) = 0 := by norm_num [clip_sample]
theorem clip_4 : clip_sample 1 4 = 3 := by norm_num [clip_sample, abs_lt]
theorem clip_3 : clip_sample 1 3 = 2 := by norm_num [clip_sample, abs_lt]
theorem clip_2 : clip_sample 1 2 = 1 := by norm_num [clip_sample, abs_lt]
theorem clip_1 : clip_sample 1 1 = 0 := by norm_num [clip_sample, abs_lt]
theorem clip_0 : clip_sample 1 0 = 0 := by norm_num [clip_sample, abs_lt]

theorem scan_first :
    scan_frame 1 6 0 [4, 4, 4, 4, -1, 2, 4, 4, 4, 0]
      = some { x := [3, 3, 3, 3, 0, 1, 4, 4, 4, 0], prev := 2, aux := 2 } := by
  simp [scan_frame, forLoop, scan_sample, clip_m1, clip_4, clip_2]
  norm_num

theorem scan_second :
    scan_frame 1 6 3 [3, 3, 3, 3, 0, 1, 4, 4, 4, 0]
      = some { x := [3, 3, 3, 2, 0, 0, 3, 3, 3, 0], prev := 4, aux := 0 } := by
  simp [scan_frame, forLoop, scan_sample, clip_4, clip_3, clip_1, clip_0]
  norm_num

theorem loop_two_frames :
    frame_loop record_frame 1 ((20 : Nat) : ℚ) 6 3 11 0 [4, 4, 4, 4, -1, 2, 4, 4, 4, 0] []
      = some ([3, 3, 3, 2, 0, 0, 3, 3, 3, 0],
          [([3, 3, 3, 3, 0, 1], 40), ([2, 0, 0, 3, 3, 3], 0)]) := by
  rw [frame_loop, if_pos (by decide), scan_first]
  simp only [Option.bind_eq_bind, Option.some_bind, record_frame]
  rw [frame_loop, if_pos (by decide), scan_second]
  simp only [Option.bind_eq_bind, Option.some_bind, record_frame]
  rw [frame_loop, if_neg (by decide)]
  norm_num

theorem clip_original_second :
    (frame_at [4, 4, 4, 4, -1, 2, 4, 4, 4, 0] 3 6).map (clip_sample 1)
      = [3, 0, 1, 3, 3, 3] := by
  simp [frame_at, clip_m1, clip_4, clip_2]

theorem crossings_original_second :
    crossings (frame_at [4, 4, 4, 4, -1, 2, 4, 4, 4, 0] 3 6) = 2 := by
  have e : Finset.Ico 1 6 = {1, 2, 3, 4, 5} := by decide
  simp [frame_at, crossings, e, -Finset.sum_boole]
  norm_num

/-- C7, counterexample. On the 200 Hz signal `[4, 4, 4, 4, -1, 2, 4, 4, 4, 0]`
(frames of 6 samples shifted by 3, `cte = 20`) with clip level 1
(`clipmult = 1/4`), the loop leaves the buffer
`[3, 3, 3, 2, 0, 0, 3, 3, 3, 0]`, which is not the loaded signal, and frame 1
is handed to the estimator as `[2, 0, 0, 3, 3, 3]` with `zcr = 0`, whereas the
centre-clipping of the original samples `x[3..9)` is `[3, 0, 1, 3, 3, 3]` and
they have 2 crossings (`zcr = 40`). -/
theorem signal_buffer_overwritten :
    clip_level (1 / 4) [4, 4, 4, 4, -1, 2, 4, 4, 4, 0] = 1 ∧ cte 200 6 = some 20 ∧
      frame_loop record_frame 1 ((20 : Nat) : ℚ) 6 3 11 0 [4, 4, 4, 4, -1, 2, 4, 4, 4, 0] []
        = some ([3, 3, 3, 2, 0, 0, 3, 3, 3, 0],
            [([3, 3, 3, 3, 0, 1], 40), ([2, 0, 0, 3, 3, 3], 0)]) ∧
      ([3, 3, 3, 2, 0, 0, 3, 3, 3, 0] : List ℚ) ≠ [4, 4, 4, 4, -1, 2, 4, 4, 4, 0] ∧
      (frame_at [4, 4, 4, 4, -1, 2, 4, 4, 4, 0] 3 6).map (clip_sample 1)
        = [3, 0, 1, 3, 3, 3] ∧
      crossings (frame_at [4, 4, 4, 4, -1, 2, 4, 4, 4, 0] 3 6) = 2 ∧
      (([2, 0, 0, 3, 3, 3], 0) : List ℚ × ℚ)
        ≠ ([3, 0, 1, 3, 3, 3], ((2 : Nat) : ℚ) * ((20 : Nat) : ℚ)) := by
  refine ⟨?_, by decide, loop_two_frames, by decide, clip_original_second,
    crossings_original_second, ?_⟩
  · norm_num [clip_level, abs_f]
  · simp

/-- C7, amended. Preprocessing is done in place on the signal buffer. For a
frame shift of at least 1 the frame loop ends with a value, and every frame
`k` that does not overlap an earlier frame (`k = 0`, or any `k` when
`n_len ≤ n_shift`) is handed to the estimator as the centre-clipping at level
`Cl` of the original samples `x[k*n_shift .. k*n_shift + n_len)`, with a
zero-crossing rate counted on those original samples. -/
theorem frames_read_original_without_overlap (Cl c : ℚ) (n_len n_shift : Nat) (x : List ℚ)
    (hs : 1 ≤ n_shift) :
    ∃ buf handed, frame_loop record_frame Cl c n_len n_shift (x.length + 1) 0 x []
        = some (buf, handed) ∧
      buf.length = x.length ∧
      ∀ k, k < handed.length → (k = 0 ∨ n_len ≤ n_shift) →
        handed[k]? = some ((frame_at x (k * n_shift) n_len).map (clip_sample Cl),
          (crossings (frame_at x (k * n_shift) n_len) : ℚ) * c) := by
  obtain ⟨buf, rest, hrun, hlen, hcount, hfirst, hall⟩ :=
    frame_loop_record Cl c n_len n_shift x hs (x.length + 1) 0 x [] rfl (by omega) (by omega)
  refine ⟨buf, rest, by simpa using hrun, hlen, ?_⟩
  intro k hk hor
  rcases hor with h0 | hno
  · subst h0
    have hpos : 0 + n_len < x.length := by
      by_contra hcon
      rw [if_neg hcon] at hcount
      omega
    simpa using hfirst hpos
  · simpa using hall hno (fun j _ => rfl) k hk

/-- Witness of the amended C7 on the signal `[4, 4, 4, 4, -1, 2, 4, 4, 4, 0]`. -/
theorem frames_read_original_without_overlap_witness :
    ∃ buf handed,
      frame_loop record_frame 1 20 6 3 (([4, 4, 4, 4, -1, 2, 4, 4, 4, 0] : List ℚ).length + 1) 0
          [4, 4, 4, 4, -1, 2, 4, 4, 4, 0] []
        = some (buf, handed) ∧
      buf.length = ([4, 4, 4, 4, -1, 2, 4, 4, 4, 0] : List ℚ).length ∧
      ∀ k, k < handed.length → (k = 0 ∨ 6 ≤ 3) →
        handed[k]? = some
          ((frame_at [4, 4, 4, 4, -1, 2, 4, 4, 4, 0] (k * 3) 6).map (clip_sample 1),
            (crossings (frame_at [4, 4, 4, 4, -1, 2, 4, 4, 4, 0] (k * 3) 6) : ℚ) * 20) :=
  frames_read_original_without_overlap 1 20 6 3 [4, 4, 4, 4, -1, 2, 4, 4, 4, 0] (by decide)

/-- C8, the code at the failing input. For `rate = 16000` and `n_len = 480`
the scale factor is the truncated quotient 16, not `16000/958`.  For
`rate = 201` (`n_len = 6`, `n_shift = 3`) it is 20, and the frame
`[1, -1, 1, -1, 1, -1]` (5 crossings) is handed to the estimator with
`zcr = 5 * 20 = 100`, where the exact ratio gives `5 * 201/10 = 201/2`. -/
theorem zcr_scale_truncated :
    cte 16000 480 = some 16 ∧ ((16 : Nat) : ℚ) ≠ 16000 / (2 * (480 - 1)) ∧
      cte 201 6 = some 20 ∧
      frame_loop record_frame 0 ((20 : Nat) : ℚ) 6 3 8 0 [1, -1, 1, -1, 1, -1, 0] []
        = some ([1, -1, 1, -1, 1, -1, 0], [([1, -1, 1, -1, 1, -1], 100)]) ∧
      (crossings [1, -1, 1, -1, 1, -1] : ℚ) * (201 / (2 * (6 - 1))) = 201 / 2 := by
  refine ⟨by decide, by norm_num, by decide, ?_, ?_⟩
  · have c1 : clip_sample 0 1 = 1 := by norm_num [clip_sample]
    have c2 : clip_sample 0 (-1) = -1 := by norm_num [clip_sample]
    have hscan : scan_frame 0 6 0 [1, -1, 1, -1, 1, -1, 0]
        = some { x := [1, -1, 1, -1, 1, -1, 0], prev := -1, aux := 5 } := by
      simp [scan_frame, forLoop, scan_sample, c1, c2]
      norm_num
    simp [frame_loop, hscan, record_frame]
    norm_num
  · have e : Finset.Ico 1 6 = {1, 2, 3, 4, 5} := by decide
    simp [crossings, e, -Finset.sum_boole]
    norm_num

/-- C9, the code at the failing input. A 200 Hz signal of exactly
`frameLen = 6` samples holds one full frame (`0 * 3 + 6 ≤ 6`), and the frame
loop estimates none: its test is `iX + n_len < x.end()`. -/
theorem last_full_frame_dropped :
    estimate_frames (fun _ => 0) rect6 200 0 6 3 [1, 2, 3, 4, 5, 6]
        = some ([1, 2, 3, 4, 5, 6], []) ∧
      0 * 3 + 6 ≤ ([1, 2, 3, 4, 5, 6] : List ℚ).length := by
  refine ⟨?_, by decide⟩
  simp [estimate_frames, cte, frame_loop]

end get_pitch

/-! ## Median filter -/

namespace get_pitch
open upc

theorem getD_set_eq (l : List ℚ) (i : Nat) (v : ℚ) (h : i < l.length) :
    (l.set i v).getD i 0 = v := by
  simp [List.getD_eq_getElem?_getD, h]

theorem getD_set_ne (l : List ℚ) (i j : Nat) (v : ℚ) (h : i ≠ j) :
    (l.set i v).getD j 0 = l.getD j 0 := by
  simp [List.getD_eq_getElem?_getD, List.getElem?_set_ne h]

theorem swap_adjacent_perm (l : List ℚ) (i : Nat) (a b : ℚ)
    (ha : l[i]? = some a) (hb : l[i + 1]? = some b) :
    ((l.set i b).set (i + 1) a).Perm l := by
  induction l generalizing i with
  | nil => simp at ha
  | cons x t ih =>
    cases i with
    | zero =>
      cases t with
      | nil => simp at hb
      | cons y t' =>
        simp at ha hb
        subst ha; subst hb
        simp only [List.set_cons_zero, List.set_cons_succ]
        exact List.Perm.swap _ _ _
    | succ i =>
      simp only [List.getElem?_cons_succ] at ha hb
      simp only [List.set_cons_succ]
      exact List.Perm.cons _ (ih i ha hb)

/-- One compare-and-swap, when both positions exist. -/
theorem bubble_step_spec (l : Nat) (t : List ℚ) (h : l + 1 < t.length) :
    ∃ t', bubble_step l t = some t' ∧ t'.length = t.length ∧ t'.Perm t ∧
      t'.getD l 0 = min (t.getD l 0) (t.getD (l + 1) 0) ∧
      t'.getD (l + 1) 0 = max (t.getD l 0) (t.getD (l + 1) 0) ∧
      (∀ j, j ≠ l → j ≠ l + 1 → t'.getD j 0 = t.getD j 0) := by
  have h0 : l < t.length := by omega
  have ha : t[l]? = some (t.getD l 0) := by
    rw [List.getElem?_eq_getElem h0, List.getD_eq_getElem _ _ h0]
  have hb : t[l + 1]? = some (t.getD (l + 1) 0) := by
    rw [List.getElem?_eq_getElem h, List.getD_eq_getElem _ _ h]
  by_cases hgt : t.getD l 0 > t.getD (l + 1) 0
  · refine ⟨(t.set l (t.getD (l + 1) 0)).set (l + 1) (t.getD l 0), ?_, by simp,
      swap_adjacent_perm t l _ _ ha hb, ?_, ?_, ?_⟩
    · unfold bubble_step
      rw [ha, hb]
      simp only [Option.bind_eq_bind, Option.some_bind]
      rw [if_pos hgt]
      rfl
    · rw [getD_set_ne _ _ _ _ (by omega), getD_set_eq _ _ _ h0, min_eq_right (le_of_lt hgt)]
    · rw [getD_set_eq _ _ _ (by simpa using h), max_eq_left (le_of_lt hgt)]
    · intro j h1 h2
      rw [getD_set_ne _ _ _ _ (Ne.symm h2), getD_set_ne _ _ _ _ (Ne.symm h1)]
  · have hle : t.getD l 0 ≤ t.getD (l + 1) 0 := not_lt.mp hgt
    refine ⟨t, ?_, rfl, List.Perm.refl _, (min_eq_left hle).symm, (max_eq_right hle).symm,
      fun _ _ _ => rfl⟩
    unfold bubble_step
    rw [ha, hb]
    simp only [Option.bind_eq_bind, Option.some_bind]
    rw [if_neg hgt]
    rfl

/-- One pass of `m` compare-and-swaps moves the maximum of the first `m + 1`
values to position `m`. -/
theorem bubble_pass_spec (m : Nat) (u : List ℚ) (h : m < u.length) :
    ∃ t, forLoop bubble_step 0 m u = some t ∧ t.length = u.length ∧ t.Perm u ∧
      (∀ j, j < m → t.getD j 0 ≤ t.getD m 0) ∧
      (∀ j, m < j → t.getD j 0 = u.getD j 0) ∧
      (∀ j, j ≤ m → ∃ j', j' ≤ m ∧ t.getD j 0 = u.getD j' 0) := by
  obtain ⟨t, ht, hP⟩ := forLoop_inv bubble_step
    (fun i t => t.length = u.length ∧ t.Perm u ∧
      (∀ j, j < i → t.getD j 0 ≤ t.getD i 0) ∧
      (∀ j, i < j → t.getD j 0 = u.getD j 0) ∧
      (∀ j, j ≤ i → ∃ j', j' ≤ i ∧ t.getD j 0 = u.getD j' 0))
    0 m u
    ⟨rfl, List.Perm.refl _, by intro j hj; omega, fun _ _ => rfl,
      fun j hj => ⟨0, le_refl _, by rw [Nat.le_zero.mp hj]⟩⟩
    (by
      intro i t _ h2 hP
      obtain ⟨hlen, hperm, hmax, hrest, hfrom⟩ := hP
      obtain ⟨t', hstep, hlen', hperm', hlo, hhi, hoth⟩ := bubble_step_spec i t (by omega)
      refine ⟨t', hstep, by omega, hperm'.trans hperm, ?_, ?_, ?_⟩
      · intro j hj
        rw [hhi]
        by_cases e : j = i
        · subst e
          rw [hlo]
          exact min_le_max
        · rw [hoth j e (by omega)]
          exact le_trans (hmax j (by omega)) (le_max_left _ _)
      · intro j hj
        rw [hoth j (by omega) (by omega)]
        exact hrest j (by omega)
      · intro j hj
        obtain ⟨i', hi', hi'eq⟩ := hfrom i (le_refl _)
        have hnext : t.getD (i + 1) 0 = u.getD (i + 1) 0 := hrest (i + 1) (by omega)
        by_cases e1 : j = i + 1
        · subst e1
          rw [hhi]
          rcases max_choice (t.getD i 0) (t.getD (i + 1) 0) with hc | hc
          · exact ⟨i', by omega, by rw [hc, hi'eq]⟩
          · exact ⟨i + 1, le_refl _, by rw [hc, hnext]⟩
        · by_cases e2 : j = i
          · subst e2
            rw [hlo]
            rcases min_choice (t.getD j 0) (t.getD (j + 1) 0) with hc | hc
            · exact ⟨i', by omega, by rw [hc, hi'eq]⟩
            · exact ⟨j + 1, le_refl _, by rw [hc, hnext]⟩
          · rw [hoth j e2 e1]
            obtain ⟨j', hj', hj'eq⟩ := hfrom j (by omega)
            exact ⟨j', by omega, hj'eq⟩)
  simp only [Nat.zero_add] at hP
  exact ⟨t, ht, hP⟩

/-- The bubble sort of a `filter` of `F_size` values has a value, which is a
sorted permutation of `filter`. -/
theorem bubble_sort_spec (flt : List ℚ) :
    ∃ s, bubble_sort (flt.length : Int) flt = some s ∧ s.Perm flt ∧ s.Sorted (· ≤ ·) := by
  obtain ⟨t, ht, hP⟩ := forLoop_inv
    (fun k t => forLoop bubble_step 0 ((flt.length : Int) - (k : Int) - 1).toNat t)
    (fun k t => t.length = flt.length ∧ t.Perm flt ∧
      ∀ i j, i ≤ j → flt.length - k ≤ j → j < flt.length → t.getD i 0 ≤ t.getD j 0)
    0 ((flt.length : Int) - 1).toNat flt
    ⟨rfl, List.Perm.refl _, by intro i j _ h2 h3; omega⟩
    (by
      intro k t _ h2 hP
      obtain ⟨hlen, hperm, hsorted⟩ := hP
      have hk : k + 1 < flt.length := by omega
      have em : ((flt.length : Int) - (k : Int) - 1).toNat = flt.length - k - 1 := by omega
      obtain ⟨t', hpass, hlen', hperm', hmax, hrest, hfrom⟩ :=
        bubble_pass_spec (flt.length - k - 1) t (by omega)
      refine ⟨t', by beta_reduce; rw [em]; exact hpass, by omega, hperm'.trans hperm, ?_⟩
      intro i j hij hj1 hj2
      by_cases ej : j = flt.length - k - 1
      · subst ej
        rcases Nat.lt_or_ge i (flt.length - k - 1) with hi | hi
        · exact hmax i hi
        · have : i = flt.length - k - 1 := by omega
          rw [this]
      · have hjgt : flt.length - k - 1 < j := by omega
        rw [hrest j hjgt]
        rcases Nat.lt_or_ge (flt.length - k - 1) i with hi | hi
        · rw [hrest i hi]
          exact hsorted i j hij (by omega) hj2
        · obtain ⟨i', hi', hi'eq⟩ := hfrom i hi
          rw [hi'eq]
          exact hsorted i' j (by omega) (by omega) hj2)
  obtain ⟨hlen, hperm, hsorted⟩ := hP
  refine ⟨t, ht, hperm, ?_⟩
  unfold List.Sorted
  rw [List.pairwise_iff_getElem]
  intro i j hi hj hij
  have := hsorted i j (le_of_lt hij) (by omega) (by omega)
  rwa [List.getD_eq_getElem _ _ hi, List.getD_eq_getElem _ _ hj] at this

/-- The bubble sort returns the ascending sort of its input. -/
theorem bubble_sort_eq (flt : List ℚ) :
    bubble_sort (flt.length : Int) flt = some (flt.insertionSort (· ≤ ·)) := by
  obtain ⟨s, hs, hperm, hsorted⟩ := bubble_sort_spec flt
  rw [hs]
  congr 1
  exact List.eq_of_perm_of_sorted (hperm.trans (List.perm_insertionSort _ flt).symm) hsorted
    (List.sorted_insertionSort _ flt)

theorem fill_filter_eq (W iX : Nat) (f0 : List ℚ) (h : iX + W ≤ f0.length) :
    fill_filter (W : Int) iX f0 = some (frame_at f0 iX W) := by
  obtain ⟨t, ht, hP⟩ := forLoop_inv
    (fun i flt => do
      let v ← f0[iX + i]?
      pure (flt ++ [v]))
    (fun i flt => flt = frame_at f0 iX i)
    0 W [] (by simp [frame_at])
    (by
      intro i flt _ h2 hP
      have hi : iX + i < f0.length := by omega
      refine ⟨flt ++ [f0[iX + i]], by simp [List.getElem?_eq_getElem hi], ?_⟩
      beta_reduce
      rw [hP]
      unfold frame_at
      rw [List.take_succ, List.getElem?_drop, List.getElem?_eq_getElem hi]
      rfl)
  simp only [Nat.zero_add] at hP
  unfold fill_filter
  rw [Int.toNat_ofNat, ht, hP]

theorem medfilt_step_eq (W iX : Nat) (f0 : List ℚ) (hW : 1 ≤ W) (h : iX + W ≤ f0.length) :
    medfilt_step (W : Int) iX f0 = some (f0.set iX (window_median (frame_at f0 iX W))) := by
  have hlen : (frame_at f0 iX W).length = W := frame_at_length f0 iX W h
  have hsort : bubble_sort (W : Int) (frame_at f0 iX W)
      = some ((frame_at f0 iX W).insertionSort (· ≤ ·)) := by
    have := bubble_sort_eq (frame_at f0 iX W)
    rwa [hlen] at this
  have hdiv : Int.tdiv (W : Int) 2 = ((W / 2 : Nat) : Int) := rfl
  have hslen : ((frame_at f0 iX W).insertionSort (· ≤ ·)).length = W := by
    rw [List.length_insertionSort, hlen]
  have hidx : W / 2 < ((frame_at f0 iX W).insertionSort (· ≤ ·)).length := by
    rw [hslen]; omega
  unfold medfilt_step
  rw [fill_filter_eq W iX f0 h]
  simp only [Option.bind_eq_bind, Option.some_bind, hsort, hdiv, Int.toNat_ofNat]
  rw [if_pos (by omega), List.getElem?_eq_getElem hidx]
  simp only [Option.some_bind]
  rw [if_pos (by omega)]
  unfold window_median
  rw [hlen, List.getD_eq_getElem _ _ hidx]
  rfl

theorem frame_at_congr (t f0 : List ℚ) (i W : Nat) (h : ∀ j, i ≤ j → t[j]? = f0[j]?) :
    frame_at t i W = frame_at f0 i W := by
  unfold frame_at
  have : t.drop i = f0.drop i := by
    apply List.ext_getElem?
    intro j
    rw [List.getElem?_drop, List.getElem?_drop]
    exact h _ (by omega)
  rw [this]

/-- The state of the median filter after `n` positions: the first `n` entries
hold the medians of the windows of the raw contour, the others are untouched. -/
theorem medfilt_steps_spec (W n : Nat) (f0 : List ℚ) (hW : 1 ≤ W) (hn : n + W ≤ f0.length + 1) :
    ∃ t, medfilt_steps (W : Int) n f0 = some t ∧ t.length = f0.length ∧
      (∀ j, j < n → t[j]? = some (window_median (frame_at f0 j W))) ∧
      (∀ j, n ≤ j → t[j]? = f0[j]?) := by
  obtain ⟨t, ht, hP⟩ := forLoop_inv (medfilt_step (W : Int))
    (fun i t => t.length = f0.length ∧
      (∀ j, j < i → t[j]? = some (window_median (frame_at f0 j W))) ∧
      (∀ j, i ≤ j → t[j]? = f0[j]?))
    0 n f0 ⟨rfl, by intro j hj; omega, fun _ _ => rfl⟩
    (by
      intro i t _ h2 hP
      obtain ⟨hlen, hdone, hrest⟩ := hP
      have hi : i < t.length := by omega
      refine ⟨_, medfilt_step_eq W i t hW (by omega), by simp [hlen], ?_, ?_⟩
      · intro j hj
        by_cases e : j = i
        · subst e
          simp [hi, frame_at_congr t f0 j W hrest]
        · rw [List.getElem?_set_ne (Ne.symm e)]
          exact hdone j (by omega)
      · intro j hj
        rw [List.getElem?_set_ne (by omega)]
        exact hrest j (by omega))
  simp only [Nat.zero_add] at hP
  exact ⟨t, ht, hP⟩

/-- C10. The median filter implements the stated windowed median: for a
contour `f0` of length `len` and a width `W` with `1 ≤ W ≤ len` (odd or not),
the result has length `len`; for every `i` with `i + W ≤ len`, `result[i]` is
the element at index `W/2` of the ascending sort of the `W` values held at
positions `i .. i+W-1` when position `i` is processed; and for every
`i > len - W`, `result[i] = f0[i]`.  When `len < W` the contour is returned
unchanged.  The bubble sort returns a sorted permutation of its window. -/
theorem median_filter_windowed (f0 : List ℚ) (W : Nat) (hW : 1 ≤ W) :
    (W ≤ f0.length →
      ∃ res, medfilt (W : Int) f0 = some res ∧ res.length = f0.length ∧
        (∀ i, i + W ≤ f0.length →
          ∃ held, medfilt_steps (W : Int) i f0 = some held ∧
            res[i]? = some (window_median (frame_at held i W))) ∧
        (∀ i, f0.length - W < i → i < f0.length → res[i]? = f0[i]?)) ∧
    (f0.length < W → medfilt (W : Int) f0 = some f0) ∧
    (∀ flt : List ℚ, flt.length = W →
      ∃ s, bubble_sort (W : Int) flt = some s ∧ s.Perm flt ∧ s.Sorted (· ≤ ·)) := by
  refine ⟨?_, ?_, ?_⟩
  · intro hle
    have en : ((f0.length : Int) - ((W : Int) - 1)).toNat = f0.length - W + 1 := by omega
    obtain ⟨res, hres, hlen, hdone, hrest⟩ :=
      medfilt_steps_spec W (f0.length - W + 1) f0 hW (by omega)
    refine ⟨res, by unfold medfilt; rw [en]; exact hres, hlen, ?_, ?_⟩
    · intro i hi
      obtain ⟨held, hheld, -, -, hsame⟩ := medfilt_steps_spec W i f0 hW (by omega)
      refine ⟨held, hheld, ?_⟩
      rw [hdone i (by omega), frame_at_congr held f0 i W hsame]
    · intro i h1 _
      exact hrest i (by omega)
  · intro hlt
    have en : ((f0.length : Int) - ((W : Int) - 1)).toNat = 0 := by omega
    unfold medfilt medfilt_steps
    rw [en, forLoop_zero]
  · intro flt hflt
    have := bubble_sort_spec flt
    rwa [hflt] at this

/-- Witness of C10 on the contour `[5, 1, 4, 2, 3]` with width 3. -/
theorem median_filter_windowed_witness :
    (3 ≤ ([5, 1, 4, 2, 3] : List ℚ).length →
      ∃ res, medfilt ((3 : Nat) : Int) [5, 1, 4, 2, 3] = some res ∧
        res.length = ([5, 1, 4, 2, 3] : List ℚ).length ∧
        (∀ i, i + 3 ≤ ([5, 1, 4, 2, 3] : List ℚ).length →
          ∃ held, medfilt_steps ((3 : Nat) : Int) i [5, 1, 4, 2, 3] = some held ∧
            res[i]? = some (window_median (frame_at held i 3))) ∧
        (∀ i, ([5, 1, 4, 2, 3] : List ℚ).length - 3 < i →
          i < ([5, 1, 4, 2, 3] : List ℚ).length → res[i]? = ([5, 1, 4, 2, 3] : List ℚ)[i]?)) ∧
    (([5, 1, 4, 2, 3] : List ℚ).length < 3 →
      medfilt ((3 : Nat) : Int) [5, 1, 4, 2, 3] = some [5, 1, 4, 2, 3]) ∧
    (∀ flt : List ℚ, flt.length = 3 →
      ∃ s, bubble_sort ((3 : Nat) : Int) flt = some s ∧ s.Perm flt ∧ s.Sorted (· ≤ ·)) :=
  median_filter_windowed [5, 1, 4, 2, 3] 3 (by decide)

end get_pitch

/-! ## The contour and the recorded frames -/

namespace get_pitch
open upc

/-- The contour is threaded through the frame loop as an accumulator. -/
theorem frame_loop_acc {α : Type} (est : List ℚ → Nat → Nat → ℚ → Option α) (Cl c : ℚ)
    (n_len n_shift : Nat) :
    ∀ (fuel iX : Nat) (x : List ℚ) (f0 : List α),
      frame_loop est Cl c n_len n_shift fuel iX x f0
        = (frame_loop est Cl c n_len n_shift fuel iX x []).map (fun p => (p.1, f0 ++ p.2)) := by
  intro fuel
  induction fuel with
  | zero => intro iX x f0; rfl
  | succ fuel ih =>
    intro iX x f0
    by_cases hc : iX + n_len < x.length
    · rw [frame_loop, frame_loop, if_pos hc, if_pos hc]
      cases hs : scan_frame Cl n_len iX x with
      | none => rfl
      | some s =>
        simp only [Option.bind_eq_bind, Option.some_bind]
        cases he : est s.x iX (iX + n_len) (s.aux * c) with
        | none => rfl
        | some f =>
          simp only [Option.some_bind]
          rw [ih (iX + n_shift) s.x (f0 ++ [f]), ih (iX + n_shift) s.x ([] ++ [f])]
          cases frame_loop est Cl c n_len n_shift fuel (iX + n_shift) s.x [] with
          | none => rfl
          | some p => simp
    · rw [frame_loop_exit _ _ _ _ _ _ _ _ _ hc, frame_loop_exit _ _ _ _ _ _ _ _ _ hc]
      simp

theorem call_range_eq_call_vector (log10 : ℚ → ℚ) (a : PitchAnalyzer) (v : List ℚ)
    (b n : Nat) (zcr : ℚ) (h : b + n ≤ v.length) :
    call_range log10 a v b (b + n) zcr = call_vector log10 a (frame_at v b n) zcr := by
  have hlen : (frame_at v b n).length = n := frame_at_length v b n h
  have e : b + n - b = n := by omega
  unfold call_range call_vector
  rw [hlen, e]
  by_cases hn : n = a.frameLen
  · rw [if_neg (by simp; omega), if_neg (by omega), if_neg (by simpa using hn)]
    rfl
  · rw [if_pos (by simp; omega), if_pos hn]

/-- The contour that the frame loop builds with the analyzer `a` is the list of
the analyzer's answers on the recorded frames. -/
theorem frame_loop_eq_record (log10 : ℚ → ℚ) (a : PitchAnalyzer) (Cl c : ℚ)
    (n_len n_shift : Nat) :
    ∀ (fuel iX : Nat) (x : List ℚ),
      frame_loop (call_range log10 a) Cl c n_len n_shift fuel iX x []
        = (frame_loop record_frame Cl c n_len n_shift fuel iX x []).bind (fun p =>
            (p.2.mapM (fun q => call_vector log10 a q.1 q.2)).map (fun f0 => (p.1, f0))) := by
  intro fuel
  induction fuel with
  | zero => intro iX x; rfl
  | succ fuel ih =>
    intro iX x
    by_cases hc : iX + n_len < x.length
    · obtain ⟨s, hs, hslen, -, -, -⟩ := scan_frame_spec Cl n_len iX x (by omega)
      rw [frame_loop, frame_loop, if_pos hc, if_pos hc, hs]
      simp only [Option.bind_eq_bind, Option.some_bind, record_frame]
      rw [frame_loop_acc record_frame,
        call_range_eq_call_vector log10 a s.x iX n_len _ (by omega)]
      have e : iX + n_len - iX = n_len := by omega
      rw [e]
      have hfr : List.take n_len (List.drop iX s.x) = frame_at s.x iX n_len := rfl
      rw [hfr]
      cases hv : call_vector log10 a (frame_at s.x iX n_len) (s.aux * c) with
      | none =>
        cases frame_loop record_frame Cl c n_len n_shift fuel (iX + n_shift) s.x [] with
        | none => rfl
        | some p =>
          simp only [Option.some_bind, Option.map_some', List.nil_append, List.singleton_append,
            List.mapM_cons, hv]
          rfl
      | some f =>
        simp only [Option.some_bind]
        rw [frame_loop_acc (call_range log10 a), ih (iX + n_shift) s.x]
        cases frame_loop record_frame Cl c n_len n_shift fuel (iX + n_shift) s.x [] with
        | none => rfl
        | some p =>
          simp only [Option.some_bind, Option.map_some', List.nil_append, List.singleton_append,
            List.mapM_cons, hv]
          cases List.mapM (fun q => call_vector log10 a q.1 q.2) p.2 with
          | none => rfl
          | some l => rfl
    · rw [frame_loop_exit _ _ _ _ _ _ _ _ _ hc, frame_loop_exit _ _ _ _ _ _ _ _ _ hc]
      rfl

end get_pitch

/-! ## Clip level -/

namespace get_pitch
open upc

theorem abs_f_eq (v : ℚ) : abs_f v = |v| := by
  unfold abs_f
  split
  · rename_i h; rw [abs_of_neg h]; ring
  · rename_i h; rw [abs_of_nonneg (not_lt.mp h)]

/-- The running maximum of the clip-level loop started at `init`. -/
theorem peak_fold (x : List ℚ) (init : ℚ) :
    init ≤ x.foldl (fun Cl v => max Cl (abs_f v)) init ∧
    (∀ v, v ∈ x → |v| ≤ x.foldl (fun Cl v => max Cl (abs_f v)) init) ∧
    (x.foldl (fun Cl v => max Cl (abs_f v)) init = init ∨
      ∃ v, v ∈ x ∧ x.foldl (fun Cl v => max Cl (abs_f v)) init = |v|) := by
  induction x generalizing init with
  | nil => simp
  | cons a t ih =>
    simp only [List.foldl_cons]
    obtain ⟨h1, h2, h3⟩ := ih (max init (abs_f a))
    refine ⟨le_trans (le_max_left _ _) h1, ?_, ?_⟩
    · intro v hv
      rcases List.mem_cons.mp hv with rfl | hv
      · rw [← abs_f_eq]
        exact le_trans (le_max_right _ _) h1
      · exact h2 v hv
    · rcases h3 with h3 | ⟨v, hv, h3⟩
      · rcases max_choice init (abs_f a) with hc | hc
        · left; rw [h3, hc]
        · right
          exact ⟨a, List.mem_cons_self _ _, by rw [h3, hc, abs_f_eq]⟩
      · right
        exact ⟨v, List.mem_cons_of_mem _ hv, h3⟩

/-- C11. The global clip level is the clip multiplier times the peak magnitude
of the whole signal: for a non-empty signal `x` and every `clipmult`,
`Cl = clipmult * |x[i]|` for a position `i` whose magnitude is the largest of
the signal; and `main_contour` runs the frame loop on the loaded signal with
that value, computed before any frame is clipped. -/
theorem clip_level_is_scaled_peak (clipmult : ℚ) (x : List ℚ) (hx : x ≠ []) :
    ∃ i, i < x.length ∧ clip_level clipmult x = clipmult * |x.getD i 0| ∧
      (∀ j, j < x.length → |x.getD j 0| ≤ |x.getD i 0|) ∧
      ∀ (log10 cos : ℚ → ℚ) (M_PI : ℚ) (rate : Nat)
        (r2maxth r1r0th zcrth medfilt_arg potth : ℚ),
        main_contour log10 cos M_PI rate x r2maxth clipmult r1r0th zcrth medfilt_arg potth
          = (main_n_len rate).bind (fun n_len =>
              (main_n_shift rate).bind (fun n_shift =>
                (PitchAnalyzer.init cos M_PI n_len.toNat rate Window.RECT 50 500
                  r2maxth r1r0th zcrth potth).bind (fun analyzer =>
                  (estimate_frames log10 analyzer rate (clipmult * |x.getD i 0|)
                    n_len.toNat n_shift.toNat x).bind (fun run =>
                    (float_to_int medfilt_arg).bind (fun F_size =>
                      (medfilt F_size run.2).bind (fun f0 =>
                        some ([0] ++ f0 ++ [0]))))))) := by
  obtain ⟨-, hub, hatt⟩ := peak_fold x (-1)
  have hmem : ∃ v, v ∈ x ∧ x.foldl (fun Cl v => max Cl (abs_f v)) (-1) = |v| := by
    rcases hatt with h | h
    · exfalso
      obtain ⟨a, t, rfl⟩ := List.exists_cons_of_ne_nil hx
      have := hub a (List.mem_cons_self _ _)
      rw [h] at this
      have h0 : (0 : ℚ) ≤ |a| := abs_nonneg a
      linarith
    · exact h
  obtain ⟨v, hv, hval⟩ := hmem
  obtain ⟨i, hi, hiv⟩ := List.getElem_of_mem hv
  have hcl : clip_level clipmult x = clipmult * |x.getD i 0| := by
    unfold clip_level
    rw [hval, List.getD_eq_getElem _ _ hi, hiv]
  refine ⟨i, hi, hcl, ?_, ?_⟩
  · intro j hj
    rw [List.getD_eq_getElem _ _ hi, hiv, ← hval, List.getD_eq_getElem _ _ hj]
    exact hub _ (List.getElem_mem _)
  · intro log10 cos M_PI rate r2maxth r1r0th zcrth medfilt_arg potth
    unfold main_contour
    rw [hcl]
    rfl

/-- Witness of C11 on the signal `[4, -8, 2]`. -/
theorem clip_level_is_scaled_peak_witness :
    ∃ i, i < ([4, -8, 2] : List ℚ).length ∧
      clip_level (1 / 4) [4, -8, 2] = 1 / 4 * |([4, -8, 2] : List ℚ).getD i 0| ∧
      (∀ j, j < ([4, -8, 2] : List ℚ).length →
        |([4, -8, 2] : List ℚ).getD j 0| ≤ |([4, -8, 2] : List ℚ).getD i 0|) ∧
      ∀ (log10 cos : ℚ → ℚ) (M_PI : ℚ) (rate : Nat)
        (r2maxth r1r0th zcrth medfilt_arg potth : ℚ),
        main_contour log10 cos M_PI rate [4, -8, 2] r2maxth (1 / 4) r1r0th zcrth medfilt_arg
            potth
          = (main_n_len rate).bind (fun n_len =>
              (main_n_shift rate).bind (fun n_shift =>
                (PitchAnalyzer.init cos M_PI n_len.toNat rate Window.RECT 50 500
                  r2maxth r1r0th zcrth potth).bind (fun analyzer =>
                  (estimate_frames log10 analyzer rate
                    (1 / 4 * |([4, -8, 2] : List ℚ).getD i 0|)
                    n_len.toNat n_shift.toNat [4, -8, 2]).bind (fun run =>
                    (float_to_int medfilt_arg).bind (fun F_size =>
                      (medfilt F_size run.2).bind (fun f0 =>
                        some ([0] ++ f0 ++ [0]))))))) :=
  clip_level_is_scaled_peak (1 / 4) [4, -8, 2] (by simp)

end get_pitch

/-! ## Pitch search range -/

namespace upc

theorem float_to_unsigned_eq (v : ℚ) (h0 : 0 ≤ v) (h1 : v < 4294967296) :
    float_to_unsigned v = some ⌊v⌋.toNat := by
  unfold float_to_unsigned
  rw [if_pos ⟨by linarith, h1⟩]

theorem floor_toNat_lt (v : ℚ) (h0 : 0 ≤ v) (n : Nat) (h1 : v < (n : ℚ)) : ⌊v⌋.toNat < n := by
  have hf : 0 ≤ ⌊v⌋ := Int.floor_nonneg.mpr h0
  have hlt : ⌊v⌋ < (n : Int) := by
    rw [Int.floor_lt]
    exact_mod_cast h1
  omega

/-- The values that `set_f0_range` stores when both quotients fit the
conversion to `unsigned int`. -/
theorem set_f0_range_eq (a : PitchAnalyzer) (min_F0 max_F0 : ℚ)
    (hmin : 0 < min_F0) (hmax : 0 < max_F0)
    (h1 : (a.samplingFreq : ℚ) / max_F0 < 4294967296)
    (h2 : (a.samplingFreq : ℚ) / min_F0 < 4294967295) :
    set_f0_range a min_F0 max_F0 = some
      { a with
        npitch_min := max 2 ⌊(a.samplingFreq : ℚ) / max_F0⌋.toNat,
        npitch_max := min (1 + ⌊(a.samplingFreq : ℚ) / min_F0⌋.toNat) (a.frameLen / 2) } := by
  have hsf : (0 : ℚ) ≤ (a.samplingFreq : ℚ) := Nat.cast_nonneg _
  have q1 : 0 ≤ (a.samplingFreq : ℚ) / max_F0 := div_nonneg hsf (le_of_lt hmax)
  have q2 : 0 ≤ (a.samplingFreq : ℚ) / min_F0 := div_nonneg hsf (le_of_lt hmin)
  have hn : ⌊(a.samplingFreq : ℚ) / min_F0⌋.toNat < 4294967295 :=
    floor_toNat_lt _ q2 4294967295 (by exact_mod_cast h2)
  unfold set_f0_range
  simp only [fdiv, if_neg (ne_of_gt hmax), if_neg (ne_of_gt hmin), Option.bind_eq_bind,
    Option.some_bind, float_to_unsigned_eq _ q1 h1, float_to_unsigned_eq _ q2 (by linarith),
    Option.pure_def, Option.some.injEq]
  have e1 : (if ⌊(a.samplingFreq : ℚ) / max_F0⌋.toNat < 2 then 2
      else ⌊(a.samplingFreq : ℚ) / max_F0⌋.toNat)
      = max 2 ⌊(a.samplingFreq : ℚ) / max_F0⌋.toNat := by
    split <;> omega
  have e2 : (1 + ⌊(a.samplingFreq : ℚ) / min_F0⌋.toNat) % 4294967296
      = 1 + ⌊(a.samplingFreq : ℚ) / min_F0⌋.toNat := Nat.mod_eq_of_lt (by omega)
  have e3 : (if 1 + ⌊(a.samplingFreq : ℚ) / min_F0⌋.toNat > a.frameLen / 2 then a.frameLen / 2
      else 1 + ⌊(a.samplingFreq : ℚ) / min_F0⌋.toNat)
      = min (1 + ⌊(a.samplingFreq : ℚ) / min_F0⌋.toNat) (a.frameLen / 2) := by
    split <;> omega
  rw [e1, e2, e3]

theorem set_window_total (cos : ℚ → ℚ) (M_PI : ℚ) (a : PitchAnalyzer) (w : Window)
    (h : w = Window.RECT ∨ a.frameLen ≠ 1) : ∃ b, set_window cos M_PI a w = some b := by
  unfold set_window
  by_cases h0 : a.frameLen = 0
  · rw [if_pos h0]; exact ⟨a, rfl⟩
  · rw [if_neg h0]
    cases w with
    | RECT => exact ⟨_, rfl⟩
    | HAMMING =>
      have h1 : a.frameLen ≠ 1 := by
        rcases h with h | h
        · exact Window.noConfusion h
        · exact h
      have hne : ((a.frameLen - 1 : Nat) : ℚ) ≠ 0 := by
        have : 0 < a.frameLen - 1 := by omega
        exact_mod_cast (ne_of_gt this)
      obtain ⟨t, ht, -⟩ := forLoop_inv
        (fun i window => do
          let a0 := HAMMING_A0
          let a1 := 1 - a0
          let arg ← fdiv (2 * M_PI * (i : ℚ)) ((a.frameLen - 1 : Nat) : ℚ)
          if i < window.length then pure (window.set i (a0 - a1 * cos arg)) else none)
        (fun _ (u : List ℚ) => u.length = a.frameLen) 0 a.frameLen
        (resize a.window a.frameLen)
        (by simp [resize, List.length_take]; omega)
        (by
          intro i u _ h2 hu
          refine ⟨u.set i (HAMMING_A0 - (1 - HAMMING_A0) *
            cos (2 * M_PI * (i : ℚ) / ((a.frameLen - 1 : Nat) : ℚ))), ?_, by simpa using hu⟩
          simp only [fdiv, if_neg hne, Option.bind_eq_bind, Option.some_bind]
          rw [if_pos (by omega)]
          rfl)
      simp only [Option.bind_eq_bind] at ht ⊢
      rw [ht]
      exact ⟨_, rfl⟩

/-- C12, amended. The pitch-search-range invariant of `set_f0_range`: for every
`frameLen`, every `samplingFreq` and every positive `min_F0`, `max_F0` whose
quotients fit the conversion to `unsigned int` (`samplingFreq/max_F0 < 2^32`
and `samplingFreq/min_F0 < 2^32 - 1`), after a call of `set_f0_range` and
after construction, `npitch_min ≥ 2`, `npitch_max ≤ frameLen/2`,
`npitch_min = max(2, floor(samplingFreq/max_F0))` and
`npitch_max = min(1 + floor(samplingFreq/min_F0), frameLen/2)`. -/
theorem pitch_range_invariant (fLen sFreq : Nat) (min_F0 max_F0 : ℚ)
    (hmin : 0 < min_F0) (hmax : 0 < max_F0)
    (h1 : (sFreq : ℚ) / max_F0 < 4294967296) (h2 : (sFreq : ℚ) / min_F0 < 4294967295) :
    (∀ a : PitchAnalyzer, a.frameLen = fLen → a.samplingFreq = sFreq →
      ∃ b, set_f0_range a min_F0 max_F0 = some b ∧
        2 ≤ b.npitch_min ∧ b.npitch_max ≤ fLen / 2 ∧
        b.npitch_min = max 2 ⌊(sFreq : ℚ) / max_F0⌋.toNat ∧
        b.npitch_max = min (1 + ⌊(sFreq : ℚ) / min_F0⌋.toNat) (fLen / 2)) ∧
    (∀ (cos : ℚ → ℚ) (M_PI : ℚ) (w : Window) (r2maxth_ r1r0th_ zcrth_ potth_ : ℚ),
      (w = Window.RECT ∨ fLen ≠ 1) →
      ∃ c, PitchAnalyzer.init cos M_PI fLen sFreq w min_F0 max_F0 r2maxth_ r1r0th_ zcrth_ potth_
          = some c ∧
        2 ≤ c.npitch_min ∧ c.npitch_max ≤ fLen / 2 ∧
        c.npitch_min = max 2 ⌊(sFreq : ℚ) / max_F0⌋.toNat ∧
        c.npitch_max = min (1 + ⌊(sFreq : ℚ) / min_F0⌋.toNat) (fLen / 2)) := by
  have key : ∀ a : PitchAnalyzer, a.frameLen = fLen → a.samplingFreq = sFreq →
      ∃ b, set_f0_range a min_F0 max_F0 = some b ∧ b.frameLen = fLen ∧
        2 ≤ b.npitch_min ∧ b.npitch_max ≤ fLen / 2 ∧
        b.npitch_min = max 2 ⌊(sFreq : ℚ) / max_F0⌋.toNat ∧
        b.npitch_max = min (1 + ⌊(sFreq : ℚ) / min_F0⌋.toNat) (fLen / 2) := by
    intro a hf hs
    have := set_f0_range_eq a min_F0 max_F0 hmin hmax (by rw [hs]; exact h1) (by rw [hs]; exact h2)
    rw [hs, hf] at this
    exact ⟨_, this, rfl, le_max_left _ _, min_le_right _ _, rfl, rfl⟩
  refine ⟨?_, ?_⟩
  · intro a hf hs
    obtain ⟨b, hb, -, h⟩ := key a hf hs
    exact ⟨b, hb, h⟩
  · intro cos M_PI w r2maxth_ r1r0th_ zcrth_ potth_ hw
    obtain ⟨b, hb, hbf, hb1, hb2, hb3, hb4⟩ := key
      { window := [], frameLen := fLen, samplingFreq := sFreq, npitch_min := 0, npitch_max := 0,
        r2maxth := r2maxth_, r1r0th := r1r0th_, zcrth := zcrth_, potth := potth_ } rfl rfl
    obtain ⟨c, hc⟩ := set_window_total cos M_PI b w (by rw [hbf]; exact hw)
    have hbw : b.window = [] := (set_f0_range_inv _ b min_F0 max_F0 hb).1
    obtain ⟨-, -, g3, g4⟩ := set_window_inv cos M_PI b c w hc (by intro _; rw [hbw]; rfl)
    refine ⟨c, ?_, by rw [g3]; exact hb1, by rw [g4]; exact hb2, by rw [g3]; exact hb3,
      by rw [g4]; exact hb4⟩
    unfold PitchAnalyzer.init
    simp only [Option.bind_eq_bind, hb, Option.some_bind]
    exact hc

/-- C12, counterexample. With `samplingFreq = 16000` and the positive
`max_F0 = 2^-20` the claimed `npitch_min = max(2, floor(16000 * 2^20))` is
`16777216000`, which no `unsigned int` can hold: the conversion of the
quotient has no defined value, and neither has the construction. -/
theorem pitch_range_conversion_overflow :
    (0 : ℚ) < 50 ∧ (0 : ℚ) < 1 / 1048576 ∧
      max 2 ⌊((16000 : Nat) : ℚ) / (1 / 1048576)⌋.toNat = 16777216000 ∧
      (4294967296 : Nat) ≤ 16777216000 ∧
      PitchAnalyzer.init (fun _ => 0) 0 480 16000 Window.RECT 50 (1 / 1048576) 0 0 0 0
        = none := by
  have f1 : ⌊((16000 : Nat) : ℚ) / (1 / 1048576)⌋ = 16777216000 := by
    rw [Int.floor_eq_iff]; norm_num
  refine ⟨by norm_num, by norm_num, by rw [f1]; rfl, by decide, ?_⟩
  have e1 : fdiv (16000 : ℚ) 1048576⁻¹ = some 16777216000 := by
    norm_num [fdiv]
  have u1 : float_to_unsigned (16777216000 : ℚ) = none := by
    unfold float_to_unsigned
    rw [if_neg (by norm_num)]
  simp [PitchAnalyzer.init, set_f0_range, e1, u1]

/-- Witness of the amended C12 for frames of 480 samples at 16 kHz and the
range 50..500 Hz. -/
theorem pitch_range_invariant_witness :
    (∀ a : PitchAnalyzer, a.frameLen = 480 → a.samplingFreq = 16000 →
      ∃ b, set_f0_range a 50 500 = some b ∧
        2 ≤ b.npitch_min ∧ b.npitch_max ≤ 480 / 2 ∧
        b.npitch_min = max 2 ⌊((16000 : Nat) : ℚ) / 500⌋.toNat ∧
        b.npitch_max = min (1 + ⌊((16000 : Nat) : ℚ) / 50⌋.toNat) (480 / 2)) ∧
    (∀ (cos : ℚ → ℚ) (M_PI : ℚ) (w : Window) (r2maxth_ r1r0th_ zcrth_ potth_ : ℚ),
      (w = Window.RECT ∨ 480 ≠ 1) →
      ∃ c, PitchAnalyzer.init cos M_PI 480 16000 w 50 500 r2maxth_ r1r0th_ zcrth_ potth_
          = some c ∧
        2 ≤ c.npitch_min ∧ c.npitch_max ≤ 480 / 2 ∧
        c.npitch_min = max 2 ⌊((16000 : Nat) : ℚ) / 500⌋.toNat ∧
        c.npitch_max = min (1 + ⌊((16000 : Nat) : ℚ) / 50⌋.toNat) (480 / 2)) :=
  pitch_range_invariant 480 16000 50 500 (by simp) (by simp) (by norm_num) (by norm_num)

end upc

/-! ## The floor at lag 0 -/

namespace upc

/-- The value at lag 0 that `autocorrelation` leaves, in terms of the mean
energy `e = (1/N) * Σ x[n]^2` of the frame. -/
theorem autocorrelation_r0 (x r : List ℚ) (hN : 1 ≤ x.length) (hM : 1 ≤ r.length) :
    ∃ r' v, autocorrelation x r = some r' ∧ r'[0]? = some v ∧ 0 < v ∧
      (biased_estimator x 0 = 0 → v = r0_floor) ∧
      (biased_estimator x 0 ≠ 0 → v = biased_estimator x 0) := by
  obtain ⟨r', h1, -, -, h4⟩ := autocorrelation_eq x r hN hM
  refine ⟨r', _, h1, h4, ?_, ?_, ?_⟩
  · split
    · unfold r0_floor; norm_num
    · rename_i hne
      exact lt_of_le_of_ne (biased_estimator_zero_nonneg x) (Ne.symm hne)
  · intro h; rw [if_pos h]
  · intro h; rw [if_neg h]

/-- C13, amended. After `PitchAnalyzer::autocorrelation` returns, for a frame
of length `N ≥ 1` and an output length `M ≥ 1`: `r[0]` is the floor `1e-10`
when the mean energy `(1/N) * Σ x[n]^2` is exactly 0 and is that mean energy
otherwise; hence `r[0] ≥ 1e-10` exactly when the mean energy is 0 or is
itself at least `1e-10`. -/
theorem r0_floor_only_at_zero (x r : List ℚ) (hN : 1 ≤ x.length) (hM : 1 ≤ r.length) :
    ∃ r' v, autocorrelation x r = some r' ∧ r'[0]? = some v ∧
      ((1 / (x.length : ℚ)) * ∑ n in Finset.range x.length, (x.getD n 0) ^ 2 = 0 →
        v = 1 / 10000000000) ∧
      ((1 / (x.length : ℚ)) * ∑ n in Finset.range x.length, (x.getD n 0) ^ 2 ≠ 0 →
        v = (1 / (x.length : ℚ)) * ∑ n in Finset.range x.length, (x.getD n 0) ^ 2) ∧
      (1 / 10000000000 ≤ v ↔
        ((1 / (x.length : ℚ)) * ∑ n in Finset.range x.length, (x.getD n 0) ^ 2 = 0 ∨
         1 / 10000000000 ≤
          (1 / (x.length : ℚ)) * ∑ n in Finset.range x.length, (x.getD n 0) ^ 2)) := by
  obtain ⟨r', v, h1, h2, h3, h4, h5⟩ := autocorrelation_r0 x r hN hM
  rw [biased_estimator_zero] at h4 h5
  refine ⟨r', v, h1, h2, h4, h5, ?_⟩
  by_cases hz : (1 / (x.length : ℚ)) * ∑ n in Finset.range x.length, (x.getD n 0) ^ 2 = 0
  · have hv := h4 hz
    unfold r0_floor at hv
    constructor
    · intro _; exact Or.inl hz
    · intro _; rw [hv]
  · have hv := h5 hz
    rw [hv]
    constructor
    · intro h; exact Or.inr h
    · intro h
      rcases h with h | h
      · exact absurd h hz
      · exact h

/-- C13, counterexample. The frame of six samples `1e-6` has mean energy
`1e-12`, which is not zero, so it is not floored: `r[0] = 1e-12 < 1e-10`. -/
theorem r0_below_floor :
    autocorrelation [1 / 1000000, 1 / 1000000, 1 / 1000000, 1 / 1000000, 1 / 1000000, 1 / 1000000]
        [0, 0, 0]
      = some [1 / 1000000000000, 5 / 6000000000000, 4 / 6000000000000] ∧
    (1 / 1000000000000 : ℚ) < 1 / 10000000000 := by
  refine ⟨?_, by norm_num⟩
  simp [autocorrelation, forLoop, autocorrelation_lag, acc_lag, fdiv]
  norm_num

/-- C14. After the floor, `r[0]` is strictly positive for every input: for a
frame of length `N ≥ 1` and an output length `M ≥ 1`, `autocorrelation` has
a value with `r[0] > 0`, so every division by `r[0]` and the logarithm
`log10(r[0])` of `compute_pitch` are defined. -/
theorem r0_positive (log10 : ℚ → ℚ) (x r : List ℚ) (hN : 1 ≤ x.length) (hM : 1 ≤ r.length) :
    ∃ r' r0, autocorrelation x r = some r' ∧ r'[0]? = some r0 ∧ 0 < r0 ∧
      (∀ v : ℚ, fdiv v r0 = some (v / r0)) ∧ flog10 log10 r0 = some (log10 r0) := by
  obtain ⟨r', v, h1, h2, h3, -, -⟩ := autocorrelation_r0 x r hN hM
  refine ⟨r', v, h1, h2, h3, ?_, ?_⟩
  · intro w
    unfold fdiv
    rw [if_neg (ne_of_gt h3)]
  · unfold flog10
    rw [if_pos h3]

/-- Witness of the amended C13 on the frame `[1, 2, 3]` with two lags. -/
theorem r0_floor_only_at_zero_witness :
    ∃ r' v, autocorrelation [1, 2, 3] [0, 0] = some r' ∧ r'[0]? = some v ∧
      ((1 / (([1, 2, 3] : List ℚ).length : ℚ)) *
          ∑ n in Finset.range ([1, 2, 3] : List ℚ).length, (([1, 2, 3] : List ℚ).getD n 0) ^ 2
            = 0 →
        v = 1 / 10000000000) ∧
      ((1 / (([1, 2, 3] : List ℚ).length : ℚ)) *
          ∑ n in Finset.range ([1, 2, 3] : List ℚ).length, (([1, 2, 3] : List ℚ).getD n 0) ^ 2
            ≠ 0 →
        v = (1 / (([1, 2, 3] : List ℚ).length : ℚ)) *
          ∑ n in Finset.range ([1, 2, 3] : List ℚ).length,
            (([1, 2, 3] : List ℚ).getD n 0) ^ 2) ∧
      (1 / 10000000000 ≤ v ↔
        ((1 / (([1, 2, 3] : List ℚ).length : ℚ)) *
            ∑ n in Finset.range ([1, 2, 3] : List ℚ).length,
              (([1, 2, 3] : List ℚ).getD n 0) ^ 2 = 0 ∨
         1 / 10000000000 ≤
          (1 / (([1, 2, 3] : List ℚ).length : ℚ)) *
            ∑ n in Finset.range ([1, 2, 3] : List ℚ).length,
              (([1, 2, 3] : List ℚ).getD n 0) ^ 2)) :=
  r0_floor_only_at_zero [1, 2, 3] [0, 0] (by decide) (by decide)

/-- Witness of C14 on the all-zero frame of three samples. -/
theorem r0_positive_witness :
    ∃ r' r0, autocorrelation [0, 0, 0] [0, 0] = some r' ∧ r'[0]? = some r0 ∧ 0 < r0 ∧
      (∀ v : ℚ, fdiv v r0 = some (v / r0)) ∧
      flog10 (fun _ => 0) r0 = some ((fun _ => (0 : ℚ)) r0) :=
  r0_positive (fun _ => 0) [0, 0, 0] [0, 0] (by decide) (by decide)

end upc

/-! ## Frame sizes -/

namespace get_pitch
open upc

theorem float_to_int_nonneg (v : ℚ) (h0 : 0 ≤ v) (h1 : v < 2147483648) :
    float_to_int v = some ⌊v⌋ := by
  unfold float_to_int
  rw [if_pos ⟨by linarith, h1⟩, if_pos h0]

/-- The frame sizes of `main` are the truncated products. -/
theorem frame_sizes_floor (rate : Nat) (hrate : rate < 4294967296) :
    main_n_len rate = some ⌊(rate : ℚ) * (30 / 1000)⌋ ∧
    main_n_shift rate = some ⌊(rate : ℚ) * (15 / 1000)⌋ := by
  have hr : (rate : ℚ) < 4294967296 := by exact_mod_cast hrate
  have h0 : (0 : ℚ) ≤ (rate : ℚ) := Nat.cast_nonneg _
  constructor
  · unfold main_n_len FRAME_LEN
    exact float_to_int_nonneg _ (by positivity) (by linarith)
  · unfold main_n_shift FRAME_SHIFT
    exact float_to_int_nonneg _ (by positivity) (by linarith)

/-- C15, amended. Frame length and frame shift are the sample rate times 30 ms
and 15 ms truncated to an integer: for every sample rate (an `unsigned int`)
the frame length used by the pipeline is `floor(sampleRate * 0.030)` and the
frame shift is `floor(sampleRate * 0.015)`. -/
theorem frame_sizes_truncated (rate : Nat) (hrate : rate < 4294967296) :
    main_n_len rate = some ⌊(rate : ℚ) * (30 / 1000)⌋ ∧
    main_n_shift rate = some ⌊(rate : ℚ) * (15 / 1000)⌋ :=
  frame_sizes_floor rate hrate

/-- Witness of the amended C15 at 16 kHz. -/
theorem frame_sizes_truncated_witness :
    main_n_len 16000 = some ⌊((16000 : Nat) : ℚ) * (30 / 1000)⌋ ∧
    main_n_shift 16000 = some ⌊((16000 : Nat) : ℚ) * (15 / 1000)⌋ :=
  frame_sizes_truncated 16000 (by decide)

/-- C15, counterexample. At 22050 Hz the frame length is 661, not
`round(661.5) = 662`; at 11025 Hz it is 330, not `round(330.75) = 331`; at
44100 Hz the frame shift is 661, not `round(661.5) = 662`. -/
theorem frame_length_not_rounded :
    main_n_len 22050 = some 661 ∧ round ((22050 : ℚ) * (30 / 1000)) = 662 ∧
    main_n_len 11025 = some 330 ∧ round ((11025 : ℚ) * (30 / 1000)) = 331 ∧
    main_n_shift 44100 = some 661 ∧ round ((44100 : ℚ) * (15 / 1000)) = 662 := by
  have f1 : ⌊((22050 : Nat) : ℚ) * (30 / 1000)⌋ = 661 := by
    rw [Int.floor_eq_iff]; norm_num
  have f2 : ⌊((11025 : Nat) : ℚ) * (30 / 1000)⌋ = 330 := by
    rw [Int.floor_eq_iff]; norm_num
  have f3 : ⌊((44100 : Nat) : ℚ) * (15 / 1000)⌋ = 661 := by
    rw [Int.floor_eq_iff]; norm_num
  refine ⟨?_, ?_, ?_, ?_, ?_, ?_⟩
  · rw [(frame_sizes_floor 22050 (by decide)).1, f1]
  · rw [round_eq, Int.floor_eq_iff]; norm_num
  · rw [(frame_sizes_floor 11025 (by decide)).1, f2]
  · rw [round_eq, Int.floor_eq_iff]; norm_num
  · rw [(frame_sizes_floor 44100 (by decide)).2, f3]
  · rw [round_eq, Int.floor_eq_iff]; norm_num

end get_pitch

/-! ## Sinusoids and the lag range -/

namespace upc

end upc

/-! ## The median filter against a snapshot -/

namespace get_pitch
open upc

/-- The in-place median filter returns what the snapshot filter returns. -/
theorem medfilt_eq_snapshot (W : Nat) (f0 : List ℚ) (hW : 1 ≤ W) :
    medfilt (W : Int) f0 = some (snapshot_medfilt W f0) := by
  have hslen : (snapshot_medfilt W f0).length = f0.length := by
    simp [snapshot_medfilt]
  by_cases hle : W ≤ f0.length
  · have en : ((f0.length : Int) - ((W : Int) - 1)).toNat = f0.length - W + 1 := by omega
    obtain ⟨res, hres, hlen, hdone, hrest⟩ :=
      medfilt_steps_spec W (f0.length - W + 1) f0 hW (by omega)
    unfold medfilt
    rw [en, hres]
    congr 1
    apply List.ext_getElem?
    intro i
    by_cases hi : i < f0.length
    · have hsi : (snapshot_medfilt W f0)[i]? =
          some (if i + W ≤ f0.length then window_median (frame_at f0 i W) else f0.getD i 0) := by
        simp [snapshot_medfilt, hi]
      rw [hsi]
      by_cases hiw : i + W ≤ f0.length
      · rw [if_pos hiw]
        exact hdone i (by omega)
      · rw [if_neg hiw, hrest i (by omega), List.getElem?_eq_getElem hi,
          List.getD_eq_getElem _ _ hi]
    · rw [List.getElem?_eq_none (by omega), List.getElem?_eq_none (by omega)]
  · have en : ((f0.length : Int) - ((W : Int) - 1)).toNat = 0 := by omega
    unfold medfilt medfilt_steps
    rw [en, forLoop_zero]
    congr 1
    apply List.ext_getElem?
    intro i
    by_cases hi : i < f0.length
    · have hsi : (snapshot_medfilt W f0)[i]? =
          some (if i + W ≤ f0.length then window_median (frame_at f0 i W) else f0.getD i 0) := by
        simp [snapshot_medfilt, hi]
      rw [hsi, if_neg (by omega), List.getElem?_eq_getElem hi, List.getD_eq_getElem _ _ hi]
    · rw [List.getElem?_eq_none (by omega), List.getElem?_eq_none (by omega)]

/-- C17, amended. The in-place median filter is order-independent: for every
raw contour and every width `W ≥ 1` its result equals the result of the same
filter reading every window `f0[i .. i+W)` from an immutable snapshot of the
raw contour, because the window of position `i` covers positions `≥ i` only
and none of them has been overwritten when position `i` is processed. -/
theorem in_place_filter_is_order_independent (W : Nat) (f0 : List ℚ) (hW : 1 ≤ W) :
    medfilt (W : Int) f0 = some (snapshot_medfilt W f0) ∧
    ∀ i held, i + W ≤ f0.length → medfilt_steps (W : Int) i f0 = some held →
      frame_at held i W = frame_at f0 i W := by
  refine ⟨medfilt_eq_snapshot W f0 hW, ?_⟩
  intro i held hi hheld
  obtain ⟨t, ht, -, -, hsame⟩ := medfilt_steps_spec W i f0 hW (by omega)
  rw [ht] at hheld
  have e := Option.some.inj hheld
  rw [← e]
  exact frame_at_congr t f0 i W hsame

/-- C17, counterexample (negation of the claim). There is no raw contour and
odd width `W` for which the in-place result differs from the snapshot
result. -/
theorem no_order_dependent_contour :
    ¬ ∃ (f0 : List ℚ) (W : Nat), W % 2 = 1 ∧
      medfilt (W : Int) f0 ≠ some (snapshot_medfilt W f0) := by
  rintro ⟨f0, W, hodd, hne⟩
  exact hne (medfilt_eq_snapshot W f0 (by omega))

theorem window_median_replicate (W : Nat) (c : ℚ) (hW : 1 ≤ W) :
    window_median (List.replicate W c) = c := by
  unfold window_median
  have hperm := List.perm_insertionSort (· ≤ ·) (List.replicate W c)
  rw [List.perm_replicate] at hperm
  rw [hperm, List.length_replicate]
  have hidx : W / 2 < W := by omega
  simp [List.getD_eq_getElem?_getD, List.getElem?_replicate, hidx]

theorem frame_at_replicate (len i W : Nat) (c : ℚ) (h : i + W ≤ len) :
    frame_at (List.replicate len c) i W = List.replicate W c := by
  unfold frame_at
  rw [List.drop_replicate, List.take_replicate]
  congr 1
  omega

/-- C19. The median filter is a no-op on constant contours: for every value
`c`, every length `len` and every width `W ≥ 1`, the filter applied to the
contour of `len` copies of `c` returns that same contour. -/
theorem medfilt_constant (c : ℚ) (len W : Nat) (hW : 1 ≤ W) :
    medfilt (W : Int) (List.replicate len c) = some (List.replicate len c) := by
  rw [medfilt_eq_snapshot W _ hW]
  congr 1
  apply List.ext_getElem?
  intro i
  by_cases hi : i < len
  · have hsi : (snapshot_medfilt W (List.replicate len c))[i]? =
        some (if i + W ≤ (List.replicate len c).length
          then window_median (frame_at (List.replicate len c) i W)
          else (List.replicate len c).getD i 0) := by
      simp [snapshot_medfilt, hi]
    rw [hsi, List.length_replicate]
    have hc : (List.replicate len c)[i]? = some c := by
      simp [List.getElem?_replicate, hi]
    rw [hc]
    by_cases hiw : i + W ≤ len
    · rw [if_pos hiw, frame_at_replicate len i W c hiw, window_median_replicate W c hW]
    · rw [if_neg hiw]
      simp [List.getD_eq_getElem?_getD, hc]
  · rw [List.getElem?_eq_none (by simp [snapshot_medfilt]; omega),
      List.getElem?_eq_none (by simp; omega)]

/-- Witness of the amended C17 on the contour `[0, 10, 0, 10, 0, 10, 3]` with
width 3. -/
theorem in_place_filter_is_order_independent_witness :
    medfilt ((3 : Nat) : Int) [0, 10, 0, 10, 0, 10, 3]
        = some (snapshot_medfilt 3 [0, 10, 0, 10, 0, 10, 3]) ∧
    ∀ i held, i + 3 ≤ ([0, 10, 0, 10, 0, 10, 3] : List ℚ).length →
      medfilt_steps ((3 : Nat) : Int) i [0, 10, 0, 10, 0, 10, 3] = some held →
      frame_at held i 3 = frame_at [0, 10, 0, 10, 0, 10, 3] i 3 :=
  in_place_filter_is_order_independent 3 [0, 10, 0, 10, 0, 10, 3] (by decide)

/-- Witness of C19: the all-zero contour of length 5 with width 3. -/
theorem medfilt_constant_witness :
    medfilt ((3 : Nat) : Int) (List.replicate 5 0) = some (List.replicate 5 0) :=
  medfilt_constant 0 5 3 (by decide)

end get_pitch

/-! ## The all-zero frame -/

namespace upc

theorem zipWith_zero_frame (n : Nat) (w : List ℚ) (hw : w.length = n) :
    List.zipWith (fun xi wi => xi * wi) (List.replicate n 0) w = List.replicate n 0 := by
  apply List.ext_getElem?
  intro i
  by_cases hi : i < n
  · have hiw : i < w.length := by omega
    simp [List.getElem?_zipWith, List.getElem?_replicate, hi, List.getElem?_eq_getElem hiw]
  · rw [List.getElem?_eq_none (by simp; omega), List.getElem?_eq_none (by simp; omega)]

theorem biased_estimator_zero_frame (n l : Nat) :
    biased_estimator (List.replicate n 0) l = 0 := by
  unfold biased_estimator
  have : ∑ k in Finset.Ico l (List.replicate n (0 : ℚ)).length,
      (List.replicate n (0 : ℚ)).getD k 0 * (List.replicate n (0 : ℚ)).getD (k - l) 0 = 0 := by
    apply Finset.sum_eq_zero
    intro k _
    have : (List.replicate n (0 : ℚ)).getD k 0 = 0 := by
      simp [List.getD_eq_getElem?_getD, List.getElem?_replicate]
      split <;> simp
    rw [this, zero_mul]
  rw [this, mul_zero]

/-- C18. An all-zero frame is floored and classified unvoiced: for an analyzer
that satisfies the class invariant, has a non-empty lag range and the default
power threshold `potth = -52.1` (the other three thresholds are not needed),
and every `zcr`, on the frame of `frameLen` zeros the autocorrelation has
`r[0] = 1e-10`, `pot = 10*log10(r[0]) = -100` fails `pot > potth`, and the
estimator returns 0.  The library `log10` enters by its value at `1e-10`. -/
theorem zero_frame_unvoiced (log10 : ℚ → ℚ) (a : PitchAnalyzer) (zcr : ℚ)
    (hw : a.window.length = a.frameLen)
    (hmin : 2 ≤ a.npitch_min) (hmax : a.npitch_max ≤ a.frameLen / 2)
    (hrange : a.npitch_min < a.npitch_max)
    (hp : a.potth = -521 / 10)
    (hlog : log10 (1 / 10000000000) = -10) :
    ∃ r, autocorrelation
          (List.zipWith (fun xi wi => xi * wi) (List.replicate a.frameLen 0) a.window)
          (List.replicate a.npitch_max 0) = some r ∧
      r[0]? = some (1 / 10000000000) ∧
      10 * log10 (1 / 10000000000) = -100 ∧
      ¬ (10 * log10 (1 / 10000000000) > a.potth) ∧
      compute_pitch log10 a (List.replicate a.frameLen 0) zcr = some 0 := by
  have hpot : 10 * log10 (1 / 10000000000) = -100 := by rw [hlog]; norm_num
  have hfail : ¬ (10 * log10 (1 / 10000000000) > a.potth) := by
    rw [hpot, hp]; norm_num
  obtain ⟨r, lag, r0, r1, rlag, hr, -, hr0, -, -, -, -, -, hc⟩ :=
    compute_pitch_eq log10 a (List.replicate a.frameLen 0) zcr (by simp) hw hmin hmax hrange
  have hfl : 1 ≤ a.frameLen := by omega
  rw [zipWith_zero_frame a.frameLen a.window hw] at hr ⊢
  obtain ⟨r', v, hr', hv, -, hfloor, -⟩ :=
    autocorrelation_r0 (List.replicate a.frameLen 0) (List.replicate a.npitch_max 0)
      (by simpa using hfl) (by simp; omega)
  rw [hr] at hr'
  have e := Option.some.inj hr'
  subst e
  have hv0 : v = r0_floor := hfloor (biased_estimator_zero_frame a.frameLen 0)
  rw [hv0] at hv
  rw [hr0] at hv
  have er0 : r0 = 1 / 10000000000 := Option.some.inj hv
  subst er0
  refine ⟨r, hr, hr0, hpot, hfail, ?_⟩
  rw [hc]
  cases hu : unvoiced a zcr (r1 / (1 / 10000000000)) (rlag / (1 / 10000000000))
      (10 * log10 (1 / 10000000000)) with
  | true => simp
  | false =>
    exact absurd ((unvoiced_eq_false_iff a zcr _ _ _).mp hu).2.2.2 hfail

/-- Witness of C18 on the analyzer `rect6` with `potth = -52.1`. -/
theorem zero_frame_unvoiced_witness :
    ∃ r, autocorrelation
          (List.zipWith (fun xi wi => xi * wi)
            (List.replicate ({ rect6 with potth := -521 / 10 } : PitchAnalyzer).frameLen 0)
            ({ rect6 with potth := -521 / 10 } : PitchAnalyzer).window)
          (List.replicate ({ rect6 with potth := -521 / 10 } : PitchAnalyzer).npitch_max 0)
        = some r ∧
      r[0]? = some (1 / 10000000000) ∧
      10 * (fun _ => (-10 : ℚ)) (1 / 10000000000) = -100 ∧
      ¬ (10 * (fun _ => (-10 : ℚ)) (1 / 10000000000)
          > ({ rect6 with potth := -521 / 10 } : PitchAnalyzer).potth) ∧
      compute_pitch (fun _ => -10) { rect6 with potth := -521 / 10 }
        (List.replicate ({ rect6 with potth := -521 / 10 } : PitchAnalyzer).frameLen 0) 0
        = some 0 :=
  zero_frame_unvoiced (fun _ => -10) { rect6 with potth := -521 / 10 } 0
    (by decide) (by decide) (by decide) (by decide) rfl rfl

end upc

/-! ## Accesses and divisors of the estimator -/

namespace upc

theorem autocorrelation_length (x r r' : List ℚ) (h : autocorrelation x r = some r') :
    r'.length = r.length := by
  unfold autocorrelation at h
  simp only [Option.bind_eq_bind, Option.bind_eq_some] at h
  obtain ⟨t, ht, r0, -, hfin⟩ := h
  have hlen : t.length = r.length := by
    have := forLoop_inv_of_some (autocorrelation_lag x) (fun _ (u : List ℚ) => u.length = r.length)
      0 r.length r t rfl
      (by
        intro i u u' hu hlen
        unfold autocorrelation_lag at hu
        split at hu
        · simp only [Option.bind_eq_bind, Option.bind_eq_some, Option.pure_def,
            Option.some.injEq] at hu
          obtain ⟨s, -, v, -, hu⟩ := hu
          rw [← hu]
          simpa using hlen
        · exact Option.noConfusion hu)
      ht
    exact this
  split at hfin
  · have := Option.some.inj hfin
    rw [← this]
    simpa using hlen
  · have := Option.some.inj hfin
    rw [← this]
    exact hlen

theorem lag_search_empty (r : List ℚ) (npitch_min npitch_max : Nat)
    (h : npitch_max ≤ npitch_min) : lag_search r npitch_min npitch_max = some npitch_min := by
  unfold lag_search
  have e : npitch_max - npitch_min = 0 := by omega
  rw [e, forLoop_zero]

/-- With an empty lag range the read of `r[lag]` is outside `r`. -/
theorem compute_pitch_empty_range (log10 : ℚ → ℚ) (a : PitchAnalyzer) (x : List ℚ) (zcr : ℚ)
    (hx : x.length = a.frameLen) (h : a.npitch_max ≤ a.npitch_min) :
    compute_pitch log10 a x zcr = none := by
  unfold compute_pitch
  rw [if_neg (by simpa using hx)]
  cases h1 : apply_window a.window x with
  | none => simp only [Option.bind_eq_bind, Option.none_bind]
  | some xw =>
    simp only [Option.bind_eq_bind, Option.some_bind]
    cases h2 : autocorrelation xw (List.replicate a.npitch_max 0) with
    | none => simp only [Option.none_bind]
    | some r =>
      have hlen : r.length = a.npitch_max := by
        have := autocorrelation_length _ _ _ h2
        simpa using this
      have hlag : r[a.npitch_min]? = none := List.getElem?_eq_none (by omega)
      simp only [Option.some_bind, lag_search_empty r _ _ h, hlag]
      cases r[0]? with
      | none => simp only [Option.none_bind]
      | some r0 =>
        simp only [Option.some_bind]
        cases flog10 log10 r0 with
        | none => simp only [Option.none_bind]
        | some l10 =>
          simp only [Option.some_bind]
          cases r[1]? with
          | none => simp only [Option.none_bind]
          | some r1 => simp only [Option.some_bind, Option.none_bind]

/-- C20. The estimator `compute_pitch` has no out-of-range access and no zero
divisor when the lag range is non-empty: for an analyzer with
`2 ≤ npitch_min < npitch_max ≤ frameLen/2` (and the window table of length
`frameLen`) and a frame of length `frameLen`, the windowing, the
autocorrelation, the lag search and the reads of `r[0]`, `r[1]`, `r[lag]`
all have a value, `r[0]` and `lag` are not zero, and the call has a value.
With `npitch_min ≥ npitch_max` the search stops at `lag = npitch_min`, which
is outside every vector of length `npitch_max`, and the call has no value. -/
theorem compute_pitch_in_bounds (log10 : ℚ → ℚ) (a : PitchAnalyzer) (x : List ℚ) (zcr : ℚ)
    (hx : x.length = a.frameLen) (hw : a.window.length = a.frameLen) :
    (2 ≤ a.npitch_min → a.npitch_min < a.npitch_max → a.npitch_max ≤ a.frameLen / 2 →
      ∃ xw r lag r0 r1 rlag v,
        apply_window a.window x = some xw ∧
        autocorrelation xw (List.replicate a.npitch_max 0) = some r ∧
        lag_search r a.npitch_min a.npitch_max = some lag ∧
        r[0]? = some r0 ∧ r[1]? = some r1 ∧ r[lag]? = some rlag ∧
        r0 ≠ 0 ∧ lag ≠ 0 ∧
        compute_pitch log10 a x zcr = some v) ∧
    (a.npitch_max ≤ a.npitch_min →
      (∀ r : List ℚ, r.length = a.npitch_max →
        lag_search r a.npitch_min a.npitch_max = some a.npitch_min ∧
        r[a.npitch_min]? = none) ∧
      compute_pitch log10 a x zcr = none) := by
  refine ⟨?_, ?_⟩
  · intro hmin hrange hmax
    obtain ⟨r, lag, r0, r1, rlag, h1, h2, h3, h4, h5, h6, h7, -, h8⟩ :=
      compute_pitch_eq log10 a x zcr hx hw hmin hmax hrange
    exact ⟨_, r, lag, r0, r1, rlag, _, apply_window_eq _ _ (by omega), h1, h2, h3, h4, h5,
      ne_of_gt h6, by omega, h8⟩
  · intro h
    refine ⟨?_, compute_pitch_empty_range log10 a x zcr hx h⟩
    intro r hr
    exact ⟨lag_search_empty r _ _ h, List.getElem?_eq_none (by omega)⟩

/-- Witness of C20 on the analyzer `rect6` and the frame `[1, 2, 3, 4, 5, 6]`. -/
theorem compute_pitch_in_bounds_witness :
    (2 ≤ rect6.npitch_min → rect6.npitch_min < rect6.npitch_max →
        rect6.npitch_max ≤ rect6.frameLen / 2 →
      ∃ xw r lag r0 r1 rlag v,
        apply_window rect6.window [1, 2, 3, 4, 5, 6] = some xw ∧
        autocorrelation xw (List.replicate rect6.npitch_max 0) = some r ∧
        lag_search r rect6.npitch_min rect6.npitch_max = some lag ∧
        r[0]? = some r0 ∧ r[1]? = some r1 ∧ r[lag]? = some rlag ∧
        r0 ≠ 0 ∧ lag ≠ 0 ∧
        compute_pitch (fun _ => 0) rect6 [1, 2, 3, 4, 5, 6] 0 = some v) ∧
    (rect6.npitch_max ≤ rect6.npitch_min →
      (∀ r : List ℚ, r.length = rect6.npitch_max →
        lag_search r rect6.npitch_min rect6.npitch_max = some rect6.npitch_min ∧
        r[rect6.npitch_min]? = none) ∧
      compute_pitch (fun _ => 0) rect6 [1, 2, 3, 4, 5, 6] 0 = none) :=
  compute_pitch_in_bounds (fun _ => 0) rect6 [1, 2, 3, 4, 5, 6] 0 (by decide) (by decide)

end upc

/-! ## The band of the voiced estimates -/

namespace upc

/-- What a call of `set_f0_range` that leaves a non-empty lag range tells
about its arguments: the sampling rate and `min_F0` are positive and
`npitch_max - 1` does not exceed `samplingFreq / min_F0`. -/
theorem set_f0_range_nonempty (a b : PitchAnalyzer) (min_F0 max_F0 : ℚ)
    (h : set_f0_range a min_F0 max_F0 = some b) (hrange : b.npitch_min < b.npitch_max) :
    b.samplingFreq = a.samplingFreq ∧ 0 < b.samplingFreq ∧ 0 < min_F0 ∧
      ((b.npitch_max - 1 : Nat) : ℚ) ≤ (b.samplingFreq : ℚ) / min_F0 := by
  unfold set_f0_range at h
  simp only [Option.bind_eq_bind, Option.bind_eq_some, Option.pure_def, Option.some.injEq] at h
  obtain ⟨q, -, n, -, q', hq', m, hm, hb⟩ := h
  subst hb
  dsimp only at hrange ⊢
  -- the quotient by `min_F0`
  unfold fdiv at hq'
  split at hq'
  · exact Option.noConfusion hq'
  rename_i hne
  have eq' : q' = (a.samplingFreq : ℚ) / min_F0 := (Option.some.inj hq').symm
  unfold float_to_unsigned at hm
  split at hm
  swap
  · exact Option.noConfusion hm
  have em : m = ⌊q'⌋.toNat := (Option.some.inj hm).symm
  -- the range is non-empty, so `npitch_max ≥ 3` and the sum did not wrap
  have hmin2 : 2 ≤ (if n < 2 then 2 else n) := by split <;> omega
  have hmod : (1 + m) % 4294967296 ≤ 1 + m := Nat.mod_le _ _
  have hmax_le : (if (1 + m) % 4294967296 > a.frameLen / 2 then a.frameLen / 2
      else (1 + m) % 4294967296) ≤ 1 + m := by
    split <;> omega
  have hm2 : 2 ≤ m := by omega
  have hfl : (2 : Int) ≤ ⌊q'⌋ := by omega
  have hq2 : (2 : ℚ) ≤ q' := by
    have := Int.floor_le q'
    have h2 : ((2 : Int) : ℚ) ≤ ((⌊q'⌋ : Int) : ℚ) := by exact_mod_cast hfl
    push_cast at h2
    linarith
  have hsf0 : (0 : ℚ) ≤ (a.samplingFreq : ℚ) := Nat.cast_nonneg _
  have hminpos : 0 < min_F0 := by
    by_contra hcon
    have hneg : min_F0 < 0 := lt_of_le_of_ne (not_lt.mp hcon) hne
    have : (a.samplingFreq : ℚ) / min_F0 ≤ 0 := div_nonpos_of_nonneg_of_nonpos hsf0 (le_of_lt hneg)
    rw [← eq'] at this
    linarith
  have hsfpos : 0 < a.samplingFreq := by
    rcases Nat.eq_zero_or_pos a.samplingFreq with h0 | h0
    · exfalso
      rw [h0] at eq'
      simp at eq'
      rw [eq'] at hq2
      norm_num at hq2
    · exact h0
  refine ⟨rfl, hsfpos, hminpos, ?_⟩
  rw [← eq']
  have hle : (if (1 + m) % 4294967296 > a.frameLen / 2 then a.frameLen / 2
      else (1 + m) % 4294967296) - 1 ≤ m := by omega
  have hcast : (((if (1 + m) % 4294967296 > a.frameLen / 2 then a.frameLen / 2
      else (1 + m) % 4294967296) - 1 : Nat) : ℚ) ≤ (m : ℚ) := by exact_mod_cast hle
  have hmq : (m : ℚ) ≤ q' := by
    have h1 : ((m : Int)) = ⌊q'⌋ := by omega
    have h2 : ((m : Int) : ℚ) = ((⌊q'⌋ : Int) : ℚ) := by rw [h1]
    have h3 := Int.floor_le q'
    push_cast at h2
    linarith
  exact le_trans hcast hmq

theorem set_window_samplingFreq (cos : ℚ → ℚ) (M_PI : ℚ) (a b : PitchAnalyzer) (w : Window)
    (h : set_window cos M_PI a w = some b) : b.samplingFreq = a.samplingFreq := by
  unfold set_window at h
  by_cases h0 : a.frameLen = 0
  · rw [if_pos h0] at h
    rw [← Option.some.inj h]
  · rw [if_neg h0] at h
    cases w with
    | RECT => rw [← Option.some.inj h]
    | HAMMING =>
      simp only [Option.bind_eq_bind, Option.bind_eq_some, Option.pure_def,
        Option.some.injEq] at h
      obtain ⟨win, -, hb⟩ := h
      rw [← hb]

/-- The band of the estimate, for an analyzer that satisfies the class
invariant, has a non-empty lag range, and whose `npitch_max - 1` does not
exceed `samplingFreq / min_F0`. -/
theorem estimate_band (log10 : ℚ → ℚ) (c : PitchAnalyzer) (x : List ℚ) (zcr min_F0 : ℚ)
    (hx : x.length = c.frameLen) (hw : c.window.length = c.frameLen)
    (hmin : 2 ≤ c.npitch_min) (hmax : c.npitch_max ≤ c.frameLen / 2)
    (hrange : c.npitch_min < c.npitch_max) (hsf : 0 < c.samplingFreq) (hF : 0 < min_F0)
    (hq : ((c.npitch_max - 1 : Nat) : ℚ) ≤ (c.samplingFreq : ℚ) / min_F0) :
    ∃ v, compute_pitch log10 c x zcr = some v ∧
      (v ≠ 0 → ∃ lag : Nat, c.npitch_min ≤ lag ∧ lag ≤ c.npitch_max - 1 ∧
        v = (c.samplingFreq : ℚ) / (lag : ℚ) ∧
        (c.samplingFreq : ℚ) / ((c.npitch_max - 1 : Nat) : ℚ) ≤ v ∧
        v ≤ (c.samplingFreq : ℚ) / (c.npitch_min : ℚ) ∧
        min_F0 ≤ v) := by
  obtain ⟨r, lag, r0, r1, rlag, -, -, -, -, -, -, hl1, hl2, hc⟩ :=
    compute_pitch_eq log10 c x zcr hx hw hmin hmax hrange
  refine ⟨_, hc, ?_⟩
  intro hv
  split at hv
  · exact absurd rfl hv
  rename_i hu
  rw [if_neg hu]
  have hsfq : (0 : ℚ) < (c.samplingFreq : ℚ) := by exact_mod_cast hsf
  have hlagq : (0 : ℚ) < (lag : ℚ) := by exact_mod_cast (show 0 < lag by omega)
  have hminq : (0 : ℚ) < (c.npitch_min : ℚ) := by exact_mod_cast (show 0 < c.npitch_min by omega)
  have hmaxq : (0 : ℚ) < ((c.npitch_max - 1 : Nat) : ℚ) := by
    exact_mod_cast (show 0 < c.npitch_max - 1 by omega)
  have hle1 : (c.npitch_min : ℚ) ≤ (lag : ℚ) := by exact_mod_cast hl1
  have hle2 : (lag : ℚ) ≤ ((c.npitch_max - 1 : Nat) : ℚ) := by
    exact_mod_cast (show lag ≤ c.npitch_max - 1 by omega)
  refine ⟨lag, hl1, by omega, rfl, ?_, ?_, ?_⟩
  · exact div_le_div_of_nonneg_left (le_of_lt hsfq) hlagq hle2
  · exact div_le_div_of_nonneg_left (le_of_lt hsfq) hminq hle1
  · have h1 : (lag : ℚ) ≤ (c.samplingFreq : ℚ) / min_F0 := le_trans hle2 hq
    have h2 : (lag : ℚ) * min_F0 ≤ (c.samplingFreq : ℚ) := by
      have := mul_le_mul_of_nonneg_right h1 (le_of_lt hF)
      rwa [div_mul_cancel₀ _ (ne_of_gt hF)] at this
    have h3 : min_F0 * (lag : ℚ) / (lag : ℚ) ≤ (c.samplingFreq : ℚ) / (lag : ℚ) :=
      div_le_div_of_nonneg_right (by linarith) (le_of_lt hlagq)
    rwa [mul_div_cancel_right₀ _ (ne_of_gt hlagq)] at h3

theorem rect6_set_f0_range : set_f0_range rect6 50 500 = some rect6 := by
  have f1 : ⌊(200 : ℚ) / 500⌋ = 0 := by
    rw [Int.floor_eq_iff]; norm_num
  have f2 : ⌊(200 : ℚ) / 50⌋ = 4 := by
    rw [Int.floor_eq_iff]; norm_num
  have e1 : fdiv (200 : ℚ) 500 = some (200 / 500) := by
    norm_num [fdiv]
  have e2 : fdiv (200 : ℚ) 50 = some (200 / 50) := by
    norm_num [fdiv]
  have u1 : float_to_unsigned ((200 : ℚ) / 500) = some 0 := by
    unfold float_to_unsigned
    rw [if_pos (by norm_num), f1]; rfl
  have u2 : float_to_unsigned ((200 : ℚ) / 50) = some 4 := by
    unfold float_to_unsigned
    rw [if_pos (by norm_num), f2]; rfl
  simp [set_f0_range, e1, e2, u1, u2, rect6]

/-- C21. Every voiced estimate lies in the band fixed by the lag range: for an
analyzer whose range was set by `set_f0_range(min_F0, max_F0)` (by a call on
an analyzer with a window table of length `frameLen`, or by the constructor)
with `npitch_min < npitch_max`, every frame of length `frameLen` and every
`zcr`, the estimator has a value, and a non-zero value `f` equals
`samplingFreq/lag` for an integer lag with `npitch_min ≤ lag ≤ npitch_max - 1`,
hence `samplingFreq/(npitch_max - 1) ≤ f ≤ samplingFreq/npitch_min`, and
`f ≥ min_F0`. -/
theorem voiced_estimate_in_band (log10 : ℚ → ℚ) (x : List ℚ) (zcr min_F0 max_F0 : ℚ) :
    (∀ a b : PitchAnalyzer, set_f0_range a min_F0 max_F0 = some b →
      a.window.length = a.frameLen → b.npitch_min < b.npitch_max → x.length = b.frameLen →
      ∃ v, compute_pitch log10 b x zcr = some v ∧
        (v ≠ 0 → ∃ lag : Nat, b.npitch_min ≤ lag ∧ lag ≤ b.npitch_max - 1 ∧
          v = (b.samplingFreq : ℚ) / (lag : ℚ) ∧
          (b.samplingFreq : ℚ) / ((b.npitch_max - 1 : Nat) : ℚ) ≤ v ∧
          v ≤ (b.samplingFreq : ℚ) / (b.npitch_min : ℚ) ∧
          min_F0 ≤ v)) ∧
    (∀ (cos : ℚ → ℚ) (M_PI : ℚ) (fLen sFreq : Nat) (w : Window)
        (r2maxth_ r1r0th_ zcrth_ potth_ : ℚ) (c : PitchAnalyzer),
      PitchAnalyzer.init cos M_PI fLen sFreq w min_F0 max_F0 r2maxth_ r1r0th_ zcrth_ potth_
        = some c →
      c.npitch_min < c.npitch_max → x.length = c.frameLen →
      ∃ v, compute_pitch log10 c x zcr = some v ∧
        (v ≠ 0 → ∃ lag : Nat, c.npitch_min ≤ lag ∧ lag ≤ c.npitch_max - 1 ∧
          v = (c.samplingFreq : ℚ) / (lag : ℚ) ∧
          (c.samplingFreq : ℚ) / ((c.npitch_max - 1 : Nat) : ℚ) ≤ v ∧
          v ≤ (c.samplingFreq : ℚ) / (c.npitch_min : ℚ) ∧
          min_F0 ≤ v)) := by
  refine ⟨?_, ?_⟩
  · intro a b hset hw hrange hx
    obtain ⟨g1, g2, g3, g4⟩ := set_f0_range_inv a b min_F0 max_F0 hset
    obtain ⟨-, k2, k3, k4⟩ := set_f0_range_nonempty a b min_F0 max_F0 hset hrange
    exact estimate_band log10 b x zcr min_F0 hx (by rw [g1, g2]; exact hw) g3 g4 hrange k2 k3 k4
  · intro cos M_PI fLen sFreq w r2maxth_ r1r0th_ zcrth_ potth_ c hinit hrange hx
    obtain ⟨i1, i2, i3⟩ := init_inv cos M_PI fLen sFreq w min_F0 max_F0 r2maxth_ r1r0th_
      zcrth_ potth_ c hinit
    unfold PitchAnalyzer.init at hinit
    simp only [Option.bind_eq_bind, Option.bind_eq_some] at hinit
    obtain ⟨b, hb, hwin⟩ := hinit
    have hbw : b.window = [] := (set_f0_range_inv _ b min_F0 max_F0 hb).1
    obtain ⟨-, -, w3, w4⟩ := set_window_inv cos M_PI b c w hwin (by intro _; rw [hbw]; rfl)
    have ws := set_window_samplingFreq cos M_PI b c w hwin
    obtain ⟨-, k2, k3, k4⟩ := set_f0_range_nonempty _ b min_F0 max_F0 hb
      (by rw [← w3, ← w4]; exact hrange)
    exact estimate_band log10 c x zcr min_F0 hx i1 i2 i3 hrange (by rw [ws]; exact k2) k3
      (by rw [w4, ws]; exact k4)

/-- Witness of C21: the analyzer `rect6`, whose range is the one that
`set_f0_range(50, 500)` sets, on the frame `[1, 2, 3, 4, 5, 6]` (a voiced
run, answered `200 / 2`). -/
theorem voiced_estimate_in_band_witness :
    ∃ v, compute_pitch (fun _ => 1) rect6 [1, 2, 3, 4, 5, 6] (-1) = some v ∧
      (v ≠ 0 → ∃ lag : Nat, rect6.npitch_min ≤ lag ∧ lag ≤ rect6.npitch_max - 1 ∧
        v = (rect6.samplingFreq : ℚ) / (lag : ℚ) ∧
        (rect6.samplingFreq : ℚ) / ((rect6.npitch_max - 1 : Nat) : ℚ) ≤ v ∧
        v ≤ (rect6.samplingFreq : ℚ) / (rect6.npitch_min : ℚ) ∧
        50 ≤ v) :=
  (voiced_estimate_in_band (fun _ => 1) [1, 2, 3, 4, 5, 6] (-1) 50 500).1 rect6 rect6
    rect6_set_f0_range (by decide) (by decide) (by decide)

end upc
